import Mathlib

/-!
# CLUE number formatting (`clue/numberfmt.hpp`): integer formatters

A shallow embedding of the integer part of `clue/numberfmt.hpp` and a verification of
its textual contract.

## Conventions of the embedding

* A value of a fixed-width integer type `T` is an `Int` lying in the range of `T`
  (`IntType.inRange`).  Arithmetic that cannot leave the range is plain `Int` arithmetic;
  the unary minus, which can, wraps modulo `2 ^ bits` (`IntType.wrap`): that is what the
  two's-complement negate instruction computes where C++ leaves the result undefined.
* Unary minus promotes operands narrower than `int` to `int` (`IntType.promote`, with a
  32-bit `int`).
* `size_t` values are natural numbers; the only `size_t` operation of the file that can
  wrap, `nd - 1` in `write_digits`, is taken modulo `2 ^ 64`. The other ones (`c += 4`,
  `n + 1`, `fmtLen + 1`, `width - nd` under `width > nd`) stay far below the modulus for
  digit counts, and a `std::string` of `fmt_len` characters exists only if `fmt_len + 1`
  does not wrap.
* A `charT*` is an index into a memory of characters (`Mem`).  The memory records, next to
  the contents of every cell, the indices that were stored to, in program order.
* Loops are structural recursions on a counter that bounds the number of iterations; the
  lemmas `decLoop_exit` and `shiftLoop_exit` show that the loops leave through their
  condition, never through the counter.
* A `throw` is an `Except.error` paired with the memory at the time of the throw.
-/

namespace clue

deriving instance DecidableEq for Except

/-! ## Integer types -/

/-- A fixed-width two's-complement integer type: its width and signedness. -/
structure IntType where
  bits : Nat
  signed : Bool
  bits_pos : 0 < bits
  bits_lt : bits < 2 ^ 64

namespace IntType

/-- Smallest value of the type. -/
def minVal (T : IntType) : Int :=
  if T.signed then -(2 ^ (T.bits - 1) : Int) else 0

/-- Largest value of the type. -/
def maxVal (T : IntType) : Int :=
  if T.signed then (2 ^ (T.bits - 1) : Int) - 1 else (2 ^ T.bits : Int) - 1

/-- The values of the type. -/
def inRange (T : IntType) (x : Int) : Prop :=
  T.minVal ≤ x ∧ x ≤ T.maxVal

instance (T : IntType) (x : Int) : Decidable (T.inRange x) := by
  unfold inRange; exact inferInstance

/-- Conversion of a mathematical integer to the type, modulo `2 ^ bits`. -/
def wrap (T : IntType) (v : Int) : Int :=
  if T.signed then (v + 2 ^ (T.bits - 1)) % 2 ^ T.bits - 2 ^ (T.bits - 1)
  else v % 2 ^ T.bits

/-- Width of `int`. -/
def INT_BITS : Nat := 32

/-- Integer promotion: a type narrower than `int` is promoted to `int`. -/
def promote (T : IntType) : IntType :=
  if T.bits < INT_BITS then ⟨INT_BITS, true, by decide, by decide⟩ else T

/-- The expression `-x` for `x` of type `T`: computed in the promoted type. -/
def neg (T : IntType) (x : Int) : Int :=
  T.promote.wrap (-x)

end IntType

/-- The type `signed char` / `int8_t`. -/
def int8 : IntType := ⟨8, true, by decide, by decide⟩
/-- The type `short` / `int16_t`. -/
def int16 : IntType := ⟨16, true, by decide, by decide⟩
/-- The type `int` / `int32_t`. -/
def int32 : IntType := ⟨32, true, by decide, by decide⟩
/-- The type `long` / `int64_t`. -/
def int64 : IntType := ⟨64, true, by decide, by decide⟩
/-- The type `unsigned char` / `uint8_t`. -/
def uint8 : IntType := ⟨8, false, by decide, by decide⟩
/-- The type `unsigned` / `uint32_t`. -/
def uint32 : IntType := ⟨32, false, by decide, by decide⟩
/-- The type `unsigned long` / `uint64_t`. -/
def uint64 : IntType := ⟨64, false, by decide, by decide⟩

/-! ## Characters and memory -/

/-- Conversion of an integer to `char`: the value modulo 256. -/
def toChar (v : Int) : Char :=
  Char.ofNat (v % 256).toNat

/-- Character memory together with the list of indices stored to (latest first). -/
structure Mem where
  cell : Nat → Char
  written : List Nat

/-- The assignment `buf[i] = ch`. -/
def Mem.store (mem : Mem) (i : Nat) (ch : Char) : Mem :=
  ⟨fun j => if j = i then ch else mem.cell j, i :: mem.written⟩

/-- The characters held by cells `p, p + 1, ..., p + n - 1`. -/
def Mem.read (mem : Mem) (p n : Nat) : List Char :=
  (List.range' p n).map mem.cell

/-- Memory of a freshly constructed `std::string(n, '\0')`: all cells hold `'\0'`. -/
def Mem.fresh : Mem := ⟨fun _ => Char.ofNat 0, []⟩

/-- Modulus of `size_t` arithmetic. -/
def SIZE_MOD : Nat := 2 ^ 64

/-! ## Formatting tags -/

/-- The tags `fmt::dec_t`, `fmt::oct_t`, `fmt::hex_t`, `fmt::Hex_t`. -/
inductive Tag where
  | dec_t
  | oct_t
  | hex_t
  | Hex_t
  deriving DecidableEq, Repr

/-- The constant `Tag::base`. -/
def Tag.base : Tag → Nat
  | .dec_t => 10
  | .oct_t => 8
  | .hex_t => 16
  | .Hex_t => 16

/-! ## Formatting details -/

namespace details

/-- The function `fill_chars(n, ch, buf)`: stores `ch` to `buf[0..n-1]`, returns `buf + n`
(with the memory after the stores). The first argument counts the remaining iterations and
`i` is the loop variable. -/
def fill_chars_loop (ch : Char) (buf : Nat) : Nat → Nat → Mem → Mem
  | 0, _, mem => mem
  | k + 1, i, mem => fill_chars_loop ch buf k (i + 1) (mem.store (buf + i) ch)

/-- See `fill_chars_loop`. -/
def fill_chars (n : Nat) (ch : Char) (buf : Nat) (mem : Mem) : Nat × Mem :=
  (buf + n, fill_chars_loop ch buf n 0 mem)

/-- The loop `while (x >= 10000) { x /= 10000; c += 4; }` of the decimal digit count. -/
def decLoop : Nat → Int → Nat → Int × Nat
  | 0, x, c => (x, c)
  | fuel + 1, x, c =>
    if x ≥ 10000 then decLoop fuel (Int.tdiv x 10000) (c + 4) else (x, c)

/-- The loop `while (x > 0) { x >>= s; c++; }` of the octal and hex digit counts. -/
def shiftLoop (s : Nat) : Nat → Int → Nat → Int × Nat
  | 0, x, c => (x, c)
  | fuel + 1, x, c =>
    if x > 0 then shiftLoop s fuel (x >>> s) (c + 1) else (x, c)

/-- The lookup `if (x < 10) c += 1; else if (x < 100) c += 2; ...` that ends the decimal
digit count. -/
def decLookup (x : Int) (c : Nat) : Nat :=
  if x < 10 then c + 1
  else if x < 100 then c + 2
  else if x < 1000 then c + 3
  else c + 4

/-- The function `digit_traits<Tag>::positive_ndigits(x)`. -/
def positive_ndigits (tag : Tag) (x : Int) : Nat :=
  match tag with
  | .dec_t =>
    let r := decLoop x.toNat x 0
    decLookup r.1 r.2
  | .oct_t => (shiftLoop 3 x.toNat x 0).2
  | .hex_t => (shiftLoop 4 x.toNat x 0).2
  | .Hex_t => (shiftLoop 4 x.toNat x 0).2

/-- The function `digit_traits<Tag>::trail_digit(x)`: returns the digit and the updated `x`. -/
def trail_digit (tag : Tag) (x : Int) : Int × Int :=
  match tag with
  | .dec_t =>
    let q := Int.tdiv x 10
    let m := x - q * 10
    (m, q)
  | .oct_t => (Int.land x 7, x >>> 3)
  | .hex_t => (Int.land x 15, x >>> 4)
  | .Hex_t => (Int.land x 15, x >>> 4)

/-- The function `digit_traits<Tag>::digit2char(d)`. -/
def digit2char (tag : Tag) (d : Int) : Char :=
  match tag with
  | .dec_t => toChar (48 + d)
  | .oct_t => toChar (48 + d)
  | .hex_t => if d < 10 then toChar (48 + d) else toChar (97 + (d - 10))
  | .Hex_t => if d < 10 then toChar (48 + d) else toChar (65 + (d - 10))

/-- The function `int_formatted_length<Tag, T>(x, plus_sign)`. -/
def int_formatted_length (tag : Tag) (T : IntType) (x : Int) (plus_sign : Bool) : Nat :=
  if x ≥ 0 then
    let n := if x = 0 then 1 else positive_ndigits tag x
    if plus_sign then n + 1 else n
  else
    positive_ndigits tag (T.neg x) + 1

/-- The loop of `write_digits`: `k` iterations remain, `i` is the loop variable. -/
def write_digits_loop (tag : Tag) (buf m : Nat) : Nat → Nat → Int → Mem → Int × Mem
  | 0, _, x, mem => (x, mem)
  | k + 1, i, x, mem =>
    let (d, x) := trail_digit tag x
    write_digits_loop tag buf m k (i + 1) x (mem.store (buf + (m - i)) (digit2char tag d))

/-- The function `write_digits<Tag, T, charT>(x, nd, buf)`. Its first statement
`size_t m = nd - 1` is a `size_t` subtraction: `(2 ^ 64 - 1 + nd) mod 2 ^ 64`, which is
`nd - 1` for `nd ≥ 1` and `2 ^ 64 - 1` for `nd = 0`. -/
def write_digits (tag : Tag) (x : Int) (nd : Nat) (buf : Nat) (mem : Mem) : Mem :=
  let m := (SIZE_MOD - 1 + nd) % SIZE_MOD
  let r := write_digits_loop tag buf m m 0 x mem
  r.2.store buf (digit2char tag r.1)

/-- The function `_format_int<Tag, T, charT>(x, sign, nd, width, pad_zeros_, buf)`;
`sign = none` stands for the character `'\0'`. -/
def _format_int (tag : Tag) (x : Int) (sign : Option Char) (nd width : Nat)
    (pad_zeros_ : Bool) (buf : Nat) (mem : Mem) : Nat × Mem :=
  match sign with
  | none =>
    if width > nd then
      let (buf, mem) := fill_chars (width - nd) (if pad_zeros_ then '0' else ' ') buf mem
      let mem := write_digits tag x nd buf mem
      (width, mem.store (buf + nd) (Char.ofNat 0))
    else
      let mem := write_digits tag x nd buf mem
      (nd, mem.store (buf + nd) (Char.ofNat 0))
  | some sign =>
    let len := nd + 1
    if width > len then
      if pad_zeros_ then
        let mem := mem.store buf sign
        let (buf, mem) := fill_chars (width - len) '0' (buf + 1) mem
        let mem := write_digits tag x nd buf mem
        (width, mem.store (buf + nd) (Char.ofNat 0))
      else
        let (buf, mem) := fill_chars (width - len) ' ' buf mem
        let mem := mem.store buf sign
        let mem := write_digits tag x nd (buf + 1) mem
        (width, mem.store (buf + 1 + nd) (Char.ofNat 0))
    else
      let mem := mem.store buf sign
      let mem := write_digits tag x nd (buf + 1) mem
      (len, mem.store (buf + 1 + nd) (Char.ofNat 0))

/-- The exception `std::invalid_argument("intfmt::format: buffer too small.")`. -/
def buffer_too_small : String := "intfmt::format: buffer too small."

/-- The function `format_int<Tag, T, charT>(x, pad_zeros, plus_sign, width, buf, buf_len)`.
In the negative branch `T mx = -x` converts the promoted negation back to `T`. -/
def format_int (tag : Tag) (T : IntType) (x : Int) (pad_zeros plus_sign : Bool)
    (width : Nat) (buf : Nat) (buf_len : Nat) (mem : Mem) : Except String Nat × Mem :=
  if x ≥ 0 then
    let nd := if x = 0 then 1 else positive_ndigits tag x
    let sign := if plus_sign then some '+' else none
    let fmtLen := nd + (if plus_sign then 1 else 0)
    if buf_len < fmtLen + 1 then
      (.error buffer_too_small, mem)
    else
      let r := _format_int tag x sign nd width pad_zeros buf mem
      (.ok r.1, r.2)
  else
    let mx := T.wrap (T.neg x)
    let nd := positive_ndigits tag mx
    let fmtLen := nd + 1
    if buf_len < fmtLen + 1 then
      (.error buffer_too_small, mem)
    else
      let r := _format_int tag mx (some '-') nd width pad_zeros buf mem
      (.ok r.1, r.2)

/-- The `k` trailing digits of `n` in the base of the tag, most significant first, as the
characters `digit2char` gives them. -/
def trailChars (tag : Tag) : Nat → Nat → List Char
  | 0, _ => []
  | k + 1, n => trailChars tag k (n / tag.base) ++ [digit2char tag ((n % tag.base : Nat) : Int)]

/-- The `nd` characters that `write_digits` leaves in `buf[0..nd-1]` for `x = n`: the
quotient `n / base ^ (nd - 1)` as one character, then the `nd - 1` trailing digits. -/
def digitChars (tag : Tag) (nd n : Nat) : List Char :=
  digit2char tag ((n / tag.base ^ (nd - 1) : Nat) : Int) :: trailChars tag (nd - 1) n

/-- The character of a digit `d` in the convention of the tag: `Nat.digitChar`, in upper
case for `fmt::Hex_t`. -/
def stdDigitChar (tag : Tag) (d : Nat) : Char :=
  match tag with
  | .Hex_t => (Nat.digitChar d).toUpper
  | _ => Nat.digitChar d

/-- The standard representation of a natural number in the base and letter case of the tag:
the digits that `Nat.toDigits` (the function behind `Nat.repr`) produces, most significant
first, without leading zeros, `"0"` for zero. -/
def std_repr (tag : Tag) (n : Nat) : List Char :=
  match tag with
  | .Hex_t => (Nat.toDigits 16 n).map Char.toUpper
  | t => Nat.toDigits t.base n

/-- The sign character of a formatted integer: `'-'` for a negative value, `'+'` for a
non-negative one when the plus-sign flag is set, none otherwise. -/
def signChar (x : Int) (plus_sign : Bool) : Option Char :=
  if x < 0 then some '-' else if plus_sign then some '+' else none

/-- The text of a formatted integer as the specification lays it out: sign and digits, with
zeros between sign and digits or spaces before the sign when the width exceeds their
length. -/
def layout (sign body : List Char) (width : Nat) (pad_zeros : Bool) : List Char :=
  let len := sign.length + body.length
  if width > len then
    if pad_zeros then sign ++ List.replicate (width - len) '0' ++ body
    else List.replicate (width - len) ' ' ++ sign ++ body
  else sign ++ body

end details

/-! ## Format specifiers -/

/-- The class `integer_formatter<Tag>`. -/
structure integer_formatter (tag : Tag) where
  pad_zeros_ : Bool
  plus_sign_ : Bool
  deriving DecidableEq, Repr

namespace integer_formatter

variable {tag : Tag}

/-- The member `base()`. -/
def base (_f : integer_formatter tag) : Nat := tag.base

/-- The getter `pad_zeros()`. -/
def pad_zeros (f : integer_formatter tag) : Bool := f.pad_zeros_

/-- The getter `plus_sign()`. -/
def plus_sign (f : integer_formatter tag) : Bool := f.plus_sign_

/-- The setter `pad_zeros(bool v)`. -/
def set_pad_zeros (f : integer_formatter tag) (v : Bool) : integer_formatter tag :=
  ⟨v, f.plus_sign_⟩

/-- The setter `plus_sign(bool v)`. -/
def set_plus_sign (f : integer_formatter tag) (v : Bool) : integer_formatter tag :=
  ⟨f.pad_zeros_, v⟩

/-- The member `formatted_length(x)`. -/
def formatted_length (f : integer_formatter tag) (T : IntType) (x : Int) : Nat :=
  details.int_formatted_length tag T x f.plus_sign_

/-- The member `formatted_length(x, width)`. -/
def formatted_length_w (f : integer_formatter tag) (T : IntType) (x : Int) (width : Nat) : Nat :=
  let n := f.formatted_length T x
  if n > width then n else width

/-- The member `format_write(x, width, buf, buf_len)`. -/
def format_write (f : integer_formatter tag) (T : IntType) (x : Int) (width : Nat)
    (buf : Nat) (buf_len : Nat) (mem : Mem) : Except String Nat × Mem :=
  details.format_int tag T x f.pad_zeros_ f.plus_sign_ width buf buf_len mem

/-- The member `format(x)`: the string of `fmt_len` characters after `format_write`
wrote into it; an exception of `format_write` propagates. -/
def format (f : integer_formatter tag) (T : IntType) (x : Int) : Except String (List Char) :=
  let fmt_len := f.formatted_length T x
  match f.format_write T x 0 0 (fmt_len + 1) Mem.fresh with
  | (.error e, _) => .error e
  | (.ok _, s) => .ok (s.read 0 fmt_len)

/-- The member `format(x, width)`. -/
def format_w (f : integer_formatter tag) (T : IntType) (x : Int) (width : Nat) :
    Except String (List Char) :=
  let fmt_len := f.formatted_length_w T x width
  match f.format_write T x width 0 (fmt_len + 1) Mem.fresh with
  | (.error e, _) => .error e
  | (.ok _, s) => .ok (s.read 0 fmt_len)

end integer_formatter

/-- The formatter `dec()`. -/
def dec : integer_formatter .dec_t := ⟨false, false⟩
/-- The formatter `oct()`. -/
def oct : integer_formatter .oct_t := ⟨false, false⟩
/-- The formatter `hex()`. -/
def hex : integer_formatter .hex_t := ⟨false, false⟩
/-- The formatter `Hex()`. -/
def Hex : integer_formatter .Hex_t := ⟨false, false⟩

/-! ## A standard integer parser

The round-trip property of the specification speaks of "a standard base-aware integer
parser". The definitions below state such a parser: an optional leading `'+'` or `'-'`,
then one or more digits of the base, letters accepted in either case. -/

/-- Value of a digit character: `'0'..'9'` are 0 to 9, `'a'..'f'` and `'A'..'F'` are 10
to 15. -/
def std_digit_value (c : Char) : Option Nat :=
  if '0' ≤ c ∧ c ≤ '9' then some (c.toNat - '0'.toNat)
  else if 'a' ≤ c ∧ c ≤ 'f' then some (c.toNat - 'a'.toNat + 10)
  else if 'A' ≤ c ∧ c ≤ 'F' then some (c.toNat - 'A'.toNat + 10)
  else none

/-- Reads the digits of a number in the given base, most significant first, onto the
accumulator; fails at a character that is not a digit of the base. -/
def std_parse_digits (base : Nat) : List Char → Nat → Option Nat
  | [], acc => some acc
  | c :: cs, acc =>
    match std_digit_value c with
    | some d => if d < base then std_parse_digits base cs (acc * base + d) else none
    | none => none

/-- Standard signed integer parser: optional sign, then at least one digit. -/
def std_parse_int (base : Nat) (s : List Char) : Option Int :=
  match s with
  | [] => none
  | c :: cs =>
    if c = '-' then
      if cs = [] then none else (std_parse_digits base cs 0).map (fun n => -(n : Int))
    else if c = '+' then
      if cs = [] then none else (std_parse_digits base cs 0).map (fun n => (n : Int))
    else (std_parse_digits base (c :: cs) 0).map (fun n => (n : Int))

/-! ## Iteration counts and letter case -/

namespace details

/-- Number of times the body of the loop `while (x >= 10000) { x /= 10000; c += 4; }` runs:
the guard and the update of `decLoop`, counting the iterations. -/
def decLoop_iters : Nat → Int → Nat
  | 0, _ => 0
  | fuel + 1, x => if x ≥ 10000 then decLoop_iters fuel (Int.tdiv x 10000) + 1 else 0

/-- Number of times the body of the loop `while (x > 0) { x >>= s; c++; }` runs: the guard
and the update of `shiftLoop`, counting the iterations. -/
def shiftLoop_iters (s : Nat) : Nat → Int → Nat
  | 0, _ => 0
  | fuel + 1, x => if x > 0 then shiftLoop_iters s fuel (x >>> s) + 1 else 0

end details

/-- Replaces each of the letters `'a'..'f'` by `'A'..'F'` and leaves every other character
as it is. -/
def hex_upper (c : Char) : Char :=
  if 'a' ≤ c ∧ c ≤ 'f' then Char.ofNat (c.toNat - 32) else c

/-! ## Integer types: ranges and negation -/

theorem IntType.two_pow_bits (T : IntType) : (2 : Int) ^ T.bits = 2 * 2 ^ (T.bits - 1) := by
  obtain ⟨k, hk⟩ : ∃ k, T.bits = k + 1 := ⟨T.bits - 1, by have := T.bits_pos; omega⟩
  rw [hk, Nat.add_sub_cancel, pow_succ]
  ring

theorem IntType.wrap_of_inRange (T : IntType) (v : Int) (h : T.inRange v) : T.wrap v = v := by
  unfold IntType.inRange IntType.minVal IntType.maxVal at h
  unfold IntType.wrap
  have h2 := T.two_pow_bits
  have hp : (0 : Int) < 2 ^ (T.bits - 1) := by positivity
  split_ifs at h ⊢
  · rw [Int.emod_eq_of_lt] <;> omega
  · rw [Int.emod_eq_of_lt] <;> omega

theorem IntType.nonneg_of_unsigned (T : IntType) (x : Int) (h : T.inRange x)
    (hs : T.signed = false) : 0 ≤ x := by
  unfold IntType.inRange IntType.minVal at h
  simp [hs] at h
  exact h.1

theorem IntType.inRange_neg (T : IntType) (x : Int) (hx : T.inRange x) (hneg : x < 0)
    (hmin : x ≠ T.minVal) : T.inRange (-x) := by
  unfold IntType.inRange IntType.minVal IntType.maxVal at *
  split_ifs at * <;> omega

theorem IntType.inRange_promote (T : IntType) (v : Int) (h : T.inRange v) :
    T.promote.inRange v := by
  unfold IntType.promote
  split_ifs with hb
  · have hle : (2 : Int) ^ (T.bits - 1) ≤ 2 ^ 31 :=
      pow_le_pow_right₀ (by norm_num) (by unfold IntType.INT_BITS at hb; omega)
    have hle2 : (2 : Int) ^ T.bits ≤ 2 ^ 31 :=
      pow_le_pow_right₀ (by norm_num) (by unfold IntType.INT_BITS at hb; omega)
    have hp : (0 : Int) < 2 ^ (T.bits - 1) := by positivity
    unfold IntType.inRange IntType.minVal IntType.maxVal at *
    simp only [IntType.INT_BITS] at *
    norm_num at *
    split_ifs at h <;> omega
  · exact h

/-- Away from the minimum, the negation of a negative value is exact, in the promoted type
and after conversion back to `T`. -/
theorem IntType.neg_eq (T : IntType) (x : Int) (hx : T.inRange x) (hneg : x < 0)
    (hmin : x ≠ T.minVal) : T.neg x = -x ∧ T.wrap (T.neg x) = -x := by
  have h1 := T.inRange_neg x hx hneg hmin
  have h2 : T.neg x = -x := T.promote.wrap_of_inRange _ (T.inRange_promote _ h1)
  exact ⟨h2, by rw [h2]; exact T.wrap_of_inRange _ h1⟩

/-! ## The digit counts -/

namespace details

/-- The decimal loop leaves through its condition: the value it returns is below 10000. -/
theorem decLoop_exit (fuel : Nat) (x : Int) (c : Nat) (h : x.toNat ≤ fuel) :
    (decLoop fuel x c).1 < 10000 := by
  induction fuel generalizing x c with
  | zero => simp only [decLoop]; omega
  | succ fuel ih =>
    simp only [decLoop]
    split_ifs with hx
    · apply ih
      have : Int.tdiv x 10000 = x / 10000 := Int.tdiv_eq_ediv (by omega) (by norm_num)
      omega
    · simpa using hx

/-- The shift loop leaves through its condition: the value it returns is not positive. -/
theorem shiftLoop_exit (s : Nat) (hs : 0 < s) (fuel : Nat) (x : Int) (c : Nat)
    (h : x.toNat ≤ fuel) : (shiftLoop s fuel x c).1 ≤ 0 := by
  induction fuel generalizing x c with
  | zero => simp only [shiftLoop]; omega
  | succ fuel ih =>
    simp only [shiftLoop]
    split_ifs with hx
    · apply ih
      obtain ⟨n, rfl⟩ := Int.eq_ofNat_of_zero_le (le_of_lt hx)
      have h1 : ((n : Int) >>> s) = ((n >>> s : Nat) : Int) := rfl
      have h2 : n >>> s < n := by
        rw [Nat.shiftRight_eq_div_pow]
        exact Nat.div_lt_self (by omega) (Nat.one_lt_two_pow (by omega))
      rw [h1]
      simp only [Int.toNat_ofNat] at h ⊢
      omega
    · simpa using hx

theorem digits_length_div_10000 (n : Nat) (h : 10000 ≤ n) :
    (Nat.digits 10 n).length = (Nat.digits 10 (n / 10000)).length + 4 := by
  have e : n / 10000 = n / 10 / 10 / 10 / 10 := by
    simp only [Nat.div_div_eq_div_mul]
  rw [e, Nat.digits_def' (by norm_num) (by omega : 0 < n),
    Nat.digits_def' (by norm_num) (by omega : 0 < n / 10),
    Nat.digits_def' (by norm_num) (by omega : 0 < n / 10 / 10),
    Nat.digits_def' (by norm_num) (by omega : 0 < n / 10 / 10 / 10)]
  simp

theorem digits_length_lt_10000 (n : Nat) (h0 : 0 < n) (h : n < 10000) :
    (Nat.digits 10 n).length =
      if n < 10 then 1 else if n < 100 then 2 else if n < 1000 then 3 else 4 := by
  split_ifs with h1 h2 h3
  · rw [Nat.digits_of_lt 10 n (by omega) h1]; rfl
  · rw [Nat.digits_def' (by norm_num) h0, Nat.digits_of_lt 10 (n / 10) (by omega) (by omega)]
    rfl
  · rw [Nat.digits_def' (by norm_num) h0, Nat.digits_def' (by norm_num) (by omega : 0 < n / 10),
      Nat.digits_of_lt 10 (n / 10 / 10) (by omega) (by omega)]
    rfl
  · rw [Nat.digits_def' (by norm_num) h0, Nat.digits_def' (by norm_num) (by omega : 0 < n / 10),
      Nat.digits_def' (by norm_num) (by omega : 0 < n / 10 / 10),
      Nat.digits_of_lt 10 (n / 10 / 10 / 10) (by omega) (by omega)]
    rfl

theorem decLoop_natCast (fuel n c : Nat) (h : n ≤ fuel) (h0 : 0 < n) :
    decLookup (decLoop fuel n c).1 (decLoop fuel n c).2 = c + (Nat.digits 10 n).length := by
  induction fuel generalizing n c with
  | zero => omega
  | succ fuel ih =>
    simp only [decLoop]
    split_ifs with hx
    · have hn : 10000 ≤ n := by exact_mod_cast hx
      have e : Int.tdiv (n : Int) 10000 = ((n / 10000 : Nat) : Int) := rfl
      rw [e, ih (n / 10000) (c + 4) (by omega) (by omega), digits_length_div_10000 n hn]
      omega
    · have hn : n < 10000 := by
        have : (n : Int) < 10000 := by simpa using hx
        exact_mod_cast this
      rw [digits_length_lt_10000 n h0 hn]
      unfold decLookup
      have e1 : ((n : Int) < 10) ↔ n < 10 := by exact_mod_cast Iff.rfl
      have e2 : ((n : Int) < 100) ↔ n < 100 := by exact_mod_cast Iff.rfl
      have e3 : ((n : Int) < 1000) ↔ n < 1000 := by exact_mod_cast Iff.rfl
      simp only [e1, e2, e3]
      split_ifs <;> rfl

theorem shiftLoop_natCast (s : Nat) (hs : 0 < s) (fuel n c : Nat) (h : n ≤ fuel) :
    (shiftLoop s fuel n c).2 = c + (Nat.digits (2 ^ s) n).length := by
  have hb : 1 < 2 ^ s := Nat.one_lt_two_pow (by omega)
  induction fuel generalizing n c with
  | zero =>
    have : n = 0 := by omega
    subst this
    simp [shiftLoop]
  | succ fuel ih =>
    simp only [shiftLoop]
    split_ifs with hx
    · have hn : 0 < n := by exact_mod_cast hx
      have e : ((n : Int) >>> s) = ((n / 2 ^ s : Nat) : Int) := by
        rw [← Nat.shiftRight_eq_div_pow]; rfl
      have hlt : n / 2 ^ s < n := Nat.div_lt_self hn hb
      rw [e, ih (n / 2 ^ s) (c + 1) (by omega), Nat.digits_def' hb hn]
      simp only [List.length_cons]
      omega
    · have hn : n = 0 := by
        have : ¬ (0 < n) := by intro h'; exact hx (by exact_mod_cast h')
        omega
      subst hn
      simp

/-- For a positive argument, `positive_ndigits` is the number of digits in the tag's base. -/
theorem positive_ndigits_natCast (tag : Tag) (n : Nat) (h0 : 0 < n) :
    positive_ndigits tag n = (Nat.digits tag.base n).length := by
  cases tag
  · simp only [positive_ndigits, Int.toNat_ofNat, Tag.base]
    rw [decLoop_natCast n n 0 le_rfl h0]; simp
  · simp only [positive_ndigits, Int.toNat_ofNat, Tag.base]
    rw [shiftLoop_natCast 3 (by norm_num) n n 0 le_rfl]; simp
  · simp only [positive_ndigits, Int.toNat_ofNat, Tag.base]
    rw [shiftLoop_natCast 4 (by norm_num) n n 0 le_rfl]; simp
  · simp only [positive_ndigits, Int.toNat_ofNat, Tag.base]
    rw [shiftLoop_natCast 4 (by norm_num) n n 0 le_rfl]; simp

end details

/-! ## Memory -/

theorem Mem.read_length (mem : Mem) (p n : Nat) : (mem.read p n).length = n := by
  simp [Mem.read]

theorem Mem.read_zero (mem : Mem) (p : Nat) : mem.read p 0 = [] := by
  simp [Mem.read]

theorem Mem.read_succ (mem : Mem) (p n : Nat) :
    mem.read p (n + 1) = mem.read p n ++ [mem.cell (p + n)] := by
  simp [Mem.read, List.range'_1_concat]

theorem Mem.read_cons (mem : Mem) (p n : Nat) :
    mem.read p (n + 1) = mem.cell p :: mem.read (p + 1) n := by
  simp [Mem.read, List.range'_succ]

theorem Mem.read_add (mem : Mem) (p a b : Nat) :
    mem.read p (a + b) = mem.read p a ++ mem.read (p + a) b := by
  simp only [Mem.read, ← List.map_append, List.range'_append_1, Nat.add_comm a b]

theorem Mem.read_congr (m1 m2 : Mem) (p n : Nat)
    (h : ∀ j, p ≤ j → j < p + n → m1.cell j = m2.cell j) : m1.read p n = m2.read p n := by
  unfold Mem.read
  apply List.map_congr_left
  intro j hj
  rw [List.mem_range'_1] at hj
  exact h j hj.1 hj.2

theorem Mem.cell_store_same (mem : Mem) (i : Nat) (ch : Char) : (mem.store i ch).cell i = ch := by
  simp [Mem.store]

theorem Mem.cell_store_ne (mem : Mem) (i j : Nat) (ch : Char) (h : j ≠ i) :
    (mem.store i ch).cell j = mem.cell j := by
  simp [Mem.store, h]

theorem Mem.written_store (mem : Mem) (i : Nat) (ch : Char) :
    (mem.store i ch).written = i :: mem.written := rfl

namespace details

/-! ## The footprint of `fill_chars` -/

theorem fill_chars_loop_cell (ch : Char) (buf k i : Nat) (mem : Mem) (j : Nat) :
    (fill_chars_loop ch buf k i mem).cell j =
      if buf + i ≤ j ∧ j < buf + i + k then ch else mem.cell j := by
  induction k generalizing i mem with
  | zero =>
    simp only [fill_chars_loop]
    rw [if_neg (by omega)]
  | succ k ih =>
    simp only [fill_chars_loop]
    rw [ih]
    by_cases hj : j = buf + i
    · subst hj
      rw [if_neg (by omega), if_pos (by omega), Mem.cell_store_same]
    · rw [Mem.cell_store_ne _ _ _ _ hj]
      by_cases h2 : buf + (i + 1) ≤ j ∧ j < buf + (i + 1) + k
      · rw [if_pos h2, if_pos (by omega)]
      · rw [if_neg h2, if_neg (by omega)]

theorem fill_chars_loop_written (ch : Char) (buf k i : Nat) (mem : Mem) :
    (fill_chars_loop ch buf k i mem).written =
      (List.range' (buf + i) k).reverse ++ mem.written := by
  induction k generalizing i mem with
  | zero => simp [fill_chars_loop]
  | succ k ih =>
    simp only [fill_chars_loop]
    rw [ih, Mem.written_store, List.range'_succ]
    simp [Nat.add_assoc]

theorem fill_chars_fst (n : Nat) (ch : Char) (buf : Nat) (mem : Mem) :
    (fill_chars n ch buf mem).1 = buf + n := rfl

theorem fill_chars_cell (n : Nat) (ch : Char) (buf : Nat) (mem : Mem) (j : Nat) :
    (fill_chars n ch buf mem).2.cell j = if buf ≤ j ∧ j < buf + n then ch else mem.cell j := by
  simp only [fill_chars]
  rw [fill_chars_loop_cell]
  simp

theorem fill_chars_read (n : Nat) (ch : Char) (buf : Nat) (mem : Mem) :
    (fill_chars n ch buf mem).2.read buf n = List.replicate n ch := by
  apply List.ext_getElem
  · simp [Mem.read_length]
  · intro i h1 h2
    simp only [Mem.read, List.getElem_map, List.getElem_range'_1, List.getElem_replicate]
    rw [fill_chars_cell, if_pos]
    simp only [Mem.read_length] at h1
    omega

theorem fill_chars_written (n : Nat) (ch : Char) (buf : Nat) (mem : Mem) :
    (fill_chars n ch buf mem).2.written = (List.range' buf n).reverse ++ mem.written := by
  simp only [fill_chars]
  rw [fill_chars_loop_written]
  simp

/-! ## The footprint of `write_digits` -/

theorem trail_digit_natCast (tag : Tag) (n : Nat) :
    trail_digit tag n = (((n % tag.base : Nat) : Int), ((n / tag.base : Nat) : Int)) := by
  have land7 : Int.land (n : Int) 7 = ((n % 8 : Nat) : Int) := by
    have h := Nat.and_pow_two_sub_one_eq_mod n 3
    norm_num at h
    show ((n &&& 7 : Nat) : Int) = _
    rw [h]
  have land15 : Int.land (n : Int) 15 = ((n % 16 : Nat) : Int) := by
    have h := Nat.and_pow_two_sub_one_eq_mod n 4
    norm_num at h
    show ((n &&& 15 : Nat) : Int) = _
    rw [h]
  have shr3 : ((n : Int) >>> 3) = ((n / 8 : Nat) : Int) := by
    show ((n >>> 3 : Nat) : Int) = _
    rw [Nat.shiftRight_eq_div_pow]
  have shr4 : ((n : Int) >>> 4) = ((n / 16 : Nat) : Int) := by
    show ((n >>> 4 : Nat) : Int) = _
    rw [Nat.shiftRight_eq_div_pow]
  cases tag
  · have e : Int.tdiv (n : Int) 10 = ((n / 10 : Nat) : Int) := rfl
    simp only [trail_digit, Tag.base, e]
    have := Nat.div_add_mod n 10
    refine Prod.ext ?_ rfl
    show (n : Int) - ((n / 10 : Nat) : Int) * 10 = ((n % 10 : Nat) : Int)
    omega
  · simp only [trail_digit, Tag.base, land7, shr3]
  · simp only [trail_digit, Tag.base, land15, shr4]
  · simp only [trail_digit, Tag.base, land15, shr4]

theorem write_digits_loop_fst (tag : Tag) (buf m k i n : Nat) (mem : Mem) :
    (write_digits_loop tag buf m k i n mem).1 = ((n / tag.base ^ k : Nat) : Int) := by
  induction k generalizing i n mem with
  | zero => simp [write_digits_loop]
  | succ k ih =>
    simp only [write_digits_loop, trail_digit_natCast]
    rw [ih, Nat.div_div_eq_div_mul, pow_succ']

theorem write_digits_loop_frame (tag : Tag) (buf m k i n : Nat) (mem : Mem) (hk : i + k ≤ m)
    (j : Nat) (hj : j + k ≤ buf + (m - i) ∨ buf + (m - i) < j) :
    (write_digits_loop tag buf m k i n mem).2.cell j = mem.cell j := by
  induction k generalizing i n mem with
  | zero => simp [write_digits_loop]
  | succ k ih =>
    simp only [write_digits_loop, trail_digit_natCast]
    rw [ih _ _ _ (by omega) (by omega), Mem.cell_store_ne _ _ _ _ (by omega)]

theorem write_digits_loop_read (tag : Tag) (buf m k i n : Nat) (mem : Mem) (hk : i + k ≤ m) :
    (write_digits_loop tag buf m k i n mem).2.read (buf + (m - i) + 1 - k) k =
      trailChars tag k n := by
  induction k generalizing i n mem with
  | zero => simp [write_digits_loop, trailChars, Mem.read_zero]
  | succ k ih =>
    simp only [write_digits_loop, trail_digit_natCast, trailChars]
    rw [Mem.read_succ]
    have e1 : buf + (m - i) + 1 - (k + 1) = buf + (m - (i + 1)) + 1 - k := by omega
    have e2 : buf + (m - (i + 1)) + 1 - k + k = buf + (m - i) := by omega
    rw [e1, ih _ _ _ (by omega), e2,
      write_digits_loop_frame _ _ _ _ _ _ _ (by omega) _ (by omega), Mem.cell_store_same]

theorem write_digits_loop_written (tag : Tag) (buf m k i n : Nat) (mem : Mem)
    (hk : i + k ≤ m) :
    (write_digits_loop tag buf m k i n mem).2.written =
      List.range' (buf + (m - i) + 1 - k) k ++ mem.written := by
  induction k generalizing i n mem with
  | zero => simp [write_digits_loop]
  | succ k ih =>
    simp only [write_digits_loop, trail_digit_natCast]
    rw [ih _ _ _ (by omega), Mem.written_store, List.range'_1_concat]
    have e1 : buf + (m - i) + 1 - (k + 1) = buf + (m - (i + 1)) + 1 - k := by omega
    have e2 : buf + (m - (i + 1)) + 1 - k + k = buf + (m - i) := by omega
    rw [e1, e2]
    simp

theorem size_pred (nd : Nat) (h1 : 1 ≤ nd) (h2 : nd < SIZE_MOD) :
    (SIZE_MOD - 1 + nd) % SIZE_MOD = nd - 1 := by
  have e : SIZE_MOD - 1 + nd = (nd - 1) + SIZE_MOD := by
    have : 0 < SIZE_MOD := by unfold SIZE_MOD; positivity
    omega
  rw [e, Nat.add_mod_right, Nat.mod_eq_of_lt (by omega)]

theorem write_digits_eq (tag : Tag) (x : Int) (nd buf : Nat) (mem : Mem)
    (h1 : 1 ≤ nd) (h2 : nd < SIZE_MOD) :
    write_digits tag x nd buf mem =
      (write_digits_loop tag buf (nd - 1) (nd - 1) 0 x mem).2.store buf
        (digit2char tag (write_digits_loop tag buf (nd - 1) (nd - 1) 0 x mem).1) := by
  simp only [write_digits, size_pred nd h1 h2]

theorem write_digits_read (tag : Tag) (n nd buf : Nat) (mem : Mem)
    (h1 : 1 ≤ nd) (h2 : nd < SIZE_MOD) :
    (write_digits tag n nd buf mem).read buf nd = digitChars tag nd n := by
  rw [write_digits_eq _ _ _ _ _ h1 h2]
  obtain ⟨m, rfl⟩ : ∃ m, nd = m + 1 := ⟨nd - 1, by omega⟩
  simp only [Nat.add_sub_cancel, digitChars]
  rw [Mem.read_cons, Mem.cell_store_same, write_digits_loop_fst]
  congr 1
  have := write_digits_loop_read tag buf m m 0 n mem (by omega)
  rw [show buf + (m - 0) + 1 - m = buf + 1 by omega] at this
  rw [← this]
  apply Mem.read_congr
  intro j hj1 hj2
  exact Mem.cell_store_ne _ _ _ _ (by omega)

theorem write_digits_frame (tag : Tag) (n nd buf : Nat) (mem : Mem)
    (h1 : 1 ≤ nd) (h2 : nd < SIZE_MOD) (j : Nat) (hj : j < buf ∨ buf + nd ≤ j) :
    (write_digits tag n nd buf mem).cell j = mem.cell j := by
  rw [write_digits_eq _ _ _ _ _ h1 h2, Mem.cell_store_ne _ _ _ _ (by omega),
    write_digits_loop_frame _ _ _ _ _ _ _ (by omega) _ (by omega)]

theorem write_digits_written (tag : Tag) (n nd buf : Nat) (mem : Mem)
    (h1 : 1 ≤ nd) (h2 : nd < SIZE_MOD) :
    (write_digits tag n nd buf mem).written = List.range' buf nd ++ mem.written := by
  rw [write_digits_eq _ _ _ _ _ h1 h2]
  obtain ⟨m, rfl⟩ : ∃ m, nd = m + 1 := ⟨nd - 1, by omega⟩
  simp only [Nat.add_sub_cancel]
  rw [Mem.written_store, write_digits_loop_written _ _ _ _ _ _ _ (by omega),
    show buf + (m - 0) + 1 - m = buf + 1 by omega, List.range'_succ]
  rfl

/-! ## The footprint of `_format_int` -/

end details

theorem Mem.read_split (mem : Mem) (p n a : Nat) (h : a ≤ n) :
    mem.read p n = mem.read p a ++ mem.read (p + a) (n - a) := by
  rw [← Mem.read_add]
  congr 1
  omega

theorem Mem.read_store (mem : Mem) (i : Nat) (ch : Char) (p n : Nat) (h : i < p ∨ p + n ≤ i) :
    (mem.store i ch).read p n = mem.read p n :=
  Mem.read_congr _ _ _ _ fun j h1 h2 => Mem.cell_store_ne _ _ _ _ (by omega)

theorem Mem.read_store_one (mem : Mem) (i : Nat) (ch : Char) :
    (mem.store i ch).read i 1 = [ch] := by
  simp [Mem.read, Mem.store]

namespace details

theorem fill_chars_mk (n : Nat) (ch : Char) (buf : Nat) (mem : Mem) :
    fill_chars n ch buf mem = (buf + n, (fill_chars n ch buf mem).2) := rfl

theorem fill_chars_read_frame (n : Nat) (ch : Char) (buf : Nat) (mem : Mem) (p k : Nat)
    (h : p + k ≤ buf ∨ buf + n ≤ p) :
    (fill_chars n ch buf mem).2.read p k = mem.read p k :=
  Mem.read_congr _ _ _ _ fun j h1 h2 => by
    rw [fill_chars_cell, if_neg (by omega)]

theorem write_digits_read_frame (tag : Tag) (n nd buf : Nat) (mem : Mem)
    (h1 : 1 ≤ nd) (h2 : nd < SIZE_MOD) (p k : Nat) (h : p + k ≤ buf ∨ buf + nd ≤ p) :
    (write_digits tag n nd buf mem).read p k = mem.read p k :=
  Mem.read_congr _ _ _ _ fun j h3 h4 =>
    write_digits_frame _ _ _ _ _ h1 h2 _ (by omega)

theorem digitChars_length (tag : Tag) (nd n : Nat) (h : 1 ≤ nd) :
    (digitChars tag nd n).length = nd := by
  have aux : ∀ k m, (trailChars tag k m).length = k := by
    intro k
    induction k with
    | zero => intro m; rfl
    | succ k ih => intro m; simp [trailChars, ih]
  simp only [digitChars, List.length_cons, aux]
  omega

theorem _format_int_fst (tag : Tag) (x : Int) (sign : Option Char) (nd width : Nat)
    (pad : Bool) (buf : Nat) (mem : Mem) :
    (_format_int tag x sign nd width pad buf mem).1 = max (nd + sign.toList.length) width := by
  cases sign with
  | none =>
    simp only [_format_int, Option.toList, List.length_nil, Nat.add_zero]
    split_ifs <;> dsimp only <;> omega
  | some c =>
    simp only [_format_int, Option.toList, List.length_singleton]
    split_ifs <;> dsimp only <;> omega

theorem _format_int_read (tag : Tag) (n : Nat) (sign : Option Char) (nd width : Nat)
    (pad : Bool) (buf : Nat) (mem : Mem) (h1 : 1 ≤ nd) (h2 : nd < SIZE_MOD) :
    (_format_int tag n sign nd width pad buf mem).2.read buf
        (max (nd + sign.toList.length) width) =
      layout sign.toList (digitChars tag nd n) width pad := by
  have hlen := digitChars_length tag nd n h1
  cases sign with
  | none =>
    simp only [_format_int, layout, Option.toList, List.length_nil, Nat.add_zero, Nat.zero_add,
      hlen, List.nil_append, List.append_nil]
    split_ifs with h hp
    · rw [fill_chars_mk]
      simp only [hp, if_true]
      rw [max_eq_right (by omega), Mem.read_split _ buf width (width - nd) (by omega),
        show width - (width - nd) = nd by omega,
        Mem.read_store _ _ _ _ _ (by omega), Mem.read_store _ _ _ _ _ (by omega),
        write_digits_read _ _ _ _ _ h1 h2,
        write_digits_read_frame _ _ _ _ _ h1 h2 _ _ (by omega), fill_chars_read]
    · rw [fill_chars_mk]
      simp only [hp]
      rw [max_eq_right (by omega), Mem.read_split _ buf width (width - nd) (by omega),
        show width - (width - nd) = nd by omega,
        Mem.read_store _ _ _ _ _ (by omega), Mem.read_store _ _ _ _ _ (by omega),
        write_digits_read _ _ _ _ _ h1 h2,
        write_digits_read_frame _ _ _ _ _ h1 h2 _ _ (by omega), fill_chars_read]
    · simp only []
      rw [max_eq_left (by omega), Mem.read_store _ _ _ _ _ (by omega),
        write_digits_read _ _ _ _ _ h1 h2]
  | some c =>
    simp only [_format_int, layout, Option.toList, List.length_singleton, hlen]
    have e : 1 + nd = nd + 1 := by omega
    simp only [e]
    split_ifs with h hp
    · rw [fill_chars_mk]
      simp only []
      rw [max_eq_right (by omega), Mem.read_split _ buf width 1 (by omega),
        Mem.read_split _ (buf + 1) (width - 1) (width - (nd + 1)) (by omega),
        show width - 1 - (width - (nd + 1)) = nd by omega,
        Mem.read_store _ _ _ _ _ (by omega), Mem.read_store _ _ _ _ _ (by omega),
        Mem.read_store _ _ _ _ _ (by omega),
        write_digits_read _ _ _ _ _ h1 h2,
        write_digits_read_frame _ _ _ _ _ h1 h2 _ _ (by omega),
        write_digits_read_frame _ _ _ _ _ h1 h2 _ _ (by omega),
        fill_chars_read, fill_chars_read_frame _ _ _ _ _ _ (by omega), Mem.read_store_one]
      simp
    · rw [fill_chars_mk]
      simp only []
      rw [max_eq_right (by omega), Mem.read_split _ buf width (width - (nd + 1)) (by omega),
        Mem.read_split _ (buf + (width - (nd + 1))) (width - (width - (nd + 1))) 1 (by omega),
        show width - (width - (nd + 1)) - 1 = nd by omega,
        Mem.read_store _ _ _ _ _ (by omega), Mem.read_store _ _ _ _ _ (by omega),
        Mem.read_store _ _ _ _ _ (by omega),
        write_digits_read _ _ _ _ _ h1 h2,
        write_digits_read_frame _ _ _ _ _ h1 h2 _ _ (by omega),
        write_digits_read_frame _ _ _ _ _ h1 h2 _ _ (by omega),
        Mem.read_store_one, Mem.read_store _ _ _ _ _ (by omega), fill_chars_read]
      simp
    · simp only []
      rw [max_eq_left (by omega), Mem.read_split _ buf (nd + 1) 1 (by omega),
        show nd + 1 - 1 = nd by omega,
        Mem.read_store _ _ _ _ _ (by omega), Mem.read_store _ _ _ _ _ (by omega),
        write_digits_read _ _ _ _ _ h1 h2,
        write_digits_read_frame _ _ _ _ _ h1 h2 _ _ (by omega), Mem.read_store_one]

end details

theorem Mem.cell_store_eq (mem : Mem) (i j : Nat) (ch : Char) (h : j = i) :
    (mem.store i ch).cell j = ch := by
  subst h; exact Mem.cell_store_same _ _ _

namespace details

theorem _format_int_sentinel (tag : Tag) (x : Int) (sign : Option Char) (nd width : Nat)
    (pad : Bool) (buf : Nat) (mem : Mem) :
    (_format_int tag x sign nd width pad buf mem).2.cell
        (buf + max (nd + sign.toList.length) width) = Char.ofNat 0 := by
  cases sign with
  | none =>
    simp only [_format_int, Option.toList, List.length_nil, Nat.add_zero]
    split_ifs <;> simp only [fill_chars_fst] <;> exact Mem.cell_store_eq _ _ _ _ (by omega)
  | some c =>
    simp only [_format_int, Option.toList, List.length_singleton]
    split_ifs <;> simp only [fill_chars_fst] <;> exact Mem.cell_store_eq _ _ _ _ (by omega)

theorem _format_int_frame (tag : Tag) (n : Nat) (sign : Option Char) (nd width : Nat)
    (pad : Bool) (buf : Nat) (mem : Mem) (h1 : 1 ≤ nd) (h2 : nd < SIZE_MOD) (j : Nat)
    (hj : j < buf ∨ buf + max (nd + sign.toList.length) width < j) :
    (_format_int tag n sign nd width pad buf mem).2.cell j = mem.cell j := by
  cases sign with
  | none =>
    simp only [Option.toList, List.length_nil, Nat.add_zero] at hj
    simp only [_format_int]
    split_ifs with h hp <;> simp only [fill_chars_fst]
    · rw [Mem.cell_store_ne _ _ _ _ (by omega), write_digits_frame _ _ _ _ _ h1 h2 _ (by omega),
        fill_chars_cell, if_neg (by omega)]
    · rw [Mem.cell_store_ne _ _ _ _ (by omega), write_digits_frame _ _ _ _ _ h1 h2 _ (by omega),
        fill_chars_cell, if_neg (by omega)]
    · rw [Mem.cell_store_ne _ _ _ _ (by omega), write_digits_frame _ _ _ _ _ h1 h2 _ (by omega)]
  | some c =>
    simp only [Option.toList, List.length_singleton] at hj
    simp only [_format_int]
    split_ifs with h hp <;> simp only [fill_chars_fst]
    · rw [Mem.cell_store_ne _ _ _ _ (by omega), write_digits_frame _ _ _ _ _ h1 h2 _ (by omega),
        fill_chars_cell, if_neg (by omega), Mem.cell_store_ne _ _ _ _ (by omega)]
    · rw [Mem.cell_store_ne _ _ _ _ (by omega), write_digits_frame _ _ _ _ _ h1 h2 _ (by omega),
        Mem.cell_store_ne _ _ _ _ (by omega), fill_chars_cell, if_neg (by omega)]
    · rw [Mem.cell_store_ne _ _ _ _ (by omega), write_digits_frame _ _ _ _ _ h1 h2 _ (by omega),
        Mem.cell_store_ne _ _ _ _ (by omega)]

/-- The stores of `_format_int` go to the cells `buf, ..., buf + len` (`len` the returned
length), and to each of them. -/
theorem _format_int_written (tag : Tag) (n : Nat) (sign : Option Char) (nd width : Nat)
    (pad : Bool) (buf : Nat) (mem : Mem) (h1 : 1 ≤ nd) (h2 : nd < SIZE_MOD) (i : Nat) :
    i ∈ (_format_int tag n sign nd width pad buf mem).2.written ↔
      i ∈ mem.written ∨ (buf ≤ i ∧ i ≤ buf + max (nd + sign.toList.length) width) := by
  cases sign with
  | none =>
    simp only [Option.toList, List.length_nil, Nat.add_zero, _format_int]
    split_ifs with h hp <;>
      simp only [fill_chars_fst, Mem.written_store, write_digits_written _ _ _ _ _ h1 h2,
        fill_chars_written, List.mem_cons, List.mem_append, List.mem_reverse,
        List.mem_range'_1] <;>
      by_cases hm : i ∈ mem.written <;>
      simp only [hm, or_true, true_or, or_false, false_or] <;>
      omega
  | some c =>
    simp only [Option.toList, List.length_singleton, _format_int]
    split_ifs with h hp <;>
      simp only [fill_chars_fst, Mem.written_store, write_digits_written _ _ _ _ _ h1 h2,
        fill_chars_written, List.mem_cons, List.mem_append, List.mem_reverse,
        List.mem_range'_1] <;>
      by_cases hm : i ∈ mem.written <;>
      simp only [hm, or_true, true_or, or_false, false_or] <;>
      omega

/-! ## The digits written are the standard representation -/

end details

theorem Tag.one_lt_base (tag : Tag) : 1 < tag.base := by
  cases tag <;> decide

theorem Tag.base_le (tag : Tag) : tag.base ≤ 16 := by
  cases tag <;> decide

namespace details

theorem digit2char_natCast (tag : Tag) (d : Nat) (h : d < tag.base) :
    digit2char tag (d : Int) = stdDigitChar tag d := by
  have h16 := tag.base_le
  cases tag <;> simp only [Tag.base] at h <;> interval_cases d <;> rfl

theorem toDigitsCore_eq (b : Nat) (hb : 1 < b) (fuel n : Nat) (ds : List Char) (h : n < fuel) :
    Nat.toDigitsCore b fuel n ds =
      (if n = 0 then ['0'] else (Nat.digits b n).reverse.map Nat.digitChar) ++ ds := by
  induction fuel generalizing n ds with
  | zero => omega
  | succ fuel ih =>
    simp only [Nat.toDigitsCore]
    by_cases hn : n = 0
    · subst hn
      simp [Nat.digitChar]
    · have hpos : 0 < n := Nat.pos_of_ne_zero hn
      rw [if_neg hn, Nat.digits_def' hb hpos]
      by_cases hq : n / b = 0
      · rw [if_pos hq, hq]
        simp
      · rw [if_neg hq, ih (n / b) _ (by have := Nat.div_lt_self hpos hb; omega), if_neg hq]
        simp

theorem toDigits_eq (b : Nat) (hb : 1 < b) (n : Nat) :
    Nat.toDigits b n =
      if n = 0 then ['0'] else (Nat.digits b n).reverse.map Nat.digitChar := by
  unfold Nat.toDigits
  rw [toDigitsCore_eq b hb (n + 1) n [] (by omega), List.append_nil]

/-- The standard representation, in terms of `Nat.digits`. -/
theorem std_repr_eq (tag : Tag) (n : Nat) :
    std_repr tag n =
      if n = 0 then ['0'] else (Nat.digits tag.base n).reverse.map (stdDigitChar tag) := by
  cases tag
  · simp only [std_repr, Tag.base, toDigits_eq 10 (by norm_num)]; rfl
  · simp only [std_repr, Tag.base, toDigits_eq 8 (by norm_num)]; rfl
  · simp only [std_repr, Tag.base, toDigits_eq 16 (by norm_num)]; rfl
  · simp only [std_repr, Tag.base, toDigits_eq 16 (by norm_num)]
    split_ifs
    · rfl
    · simp only [List.map_map]; rfl

theorem digitChars_succ (tag : Tag) (m n : Nat) :
    digitChars tag (m + 2) n =
      digitChars tag (m + 1) (n / tag.base) ++ [digit2char tag ((n % tag.base : Nat) : Int)] := by
  simp only [digitChars, Nat.add_sub_cancel, trailChars, List.cons_append]
  rw [Nat.div_div_eq_div_mul, ← pow_succ']
  rfl

theorem digitChars_eq_digits (tag : Tag) (m n : Nat)
    (h : (Nat.digits tag.base n).length = m + 1) :
    digitChars tag (m + 1) n = (Nat.digits tag.base n).reverse.map (stdDigitChar tag) := by
  have hb := tag.one_lt_base
  induction m generalizing n with
  | zero =>
    have hn : n ≠ 0 := by
      rintro rfl
      simp at h
    have hpos : 0 < n := Nat.pos_of_ne_zero hn
    rw [Nat.digits_def' hb hpos] at h ⊢
    have hq : n / tag.base = 0 := by
      by_contra hq
      rw [Nat.digits_def' hb (Nat.pos_of_ne_zero hq)] at h
      simp at h
    have hlt : n < tag.base := (Nat.div_eq_zero_iff (by omega)).mp hq
    simp only [hq, Nat.digits_zero, List.reverse_cons, List.reverse_nil, List.nil_append,
      List.map_cons, List.map_nil, digitChars, trailChars, Nat.sub_self, pow_zero, Nat.div_one]
    rw [Nat.mod_eq_of_lt hlt, digit2char_natCast tag n hlt]
  | succ m ih =>
    have hn : n ≠ 0 := by
      rintro rfl
      simp at h
    have hpos : 0 < n := Nat.pos_of_ne_zero hn
    rw [Nat.digits_def' hb hpos] at h ⊢
    simp only [List.length_cons, Nat.add_right_cancel_iff] at h
    rw [digitChars_succ, ih _ h, digit2char_natCast tag _ (Nat.mod_lt _ (by omega))]
    simp

theorem digitChars_one_zero (tag : Tag) : digitChars tag 1 0 = ['0'] := by
  cases tag <;> rfl

theorem digits_length_le_bits (tag : Tag) (n k : Nat) (h : n < 2 ^ k) :
    (Nat.digits tag.base n).length ≤ k := by
  have hb := tag.one_lt_base
  by_cases hn : n = 0
  · subst hn; simp
  · rw [Nat.digits_len _ _ hb hn]
    have : n < tag.base ^ k := lt_of_lt_of_le h (Nat.pow_le_pow_left (by omega) k)
    have := Nat.log_lt_of_lt_pow hn this
    omega

theorem std_repr_length (tag : Tag) (n : Nat) :
    (std_repr tag n).length = if n = 0 then 1 else (Nat.digits tag.base n).length := by
  rw [std_repr_eq]
  split_ifs <;> simp

theorem std_repr_length_pos (tag : Tag) (n : Nat) : 1 ≤ (std_repr tag n).length := by
  rw [std_repr_length]
  split_ifs with h
  · exact le_rfl
  · have : Nat.digits tag.base n ≠ [] := Nat.digits_ne_nil_iff_ne_zero.mpr h
    exact List.length_pos.mpr this

theorem std_repr_length_le (tag : Tag) (n k : Nat) (h : n < 2 ^ k) (hk : 0 < k) :
    (std_repr tag n).length ≤ k := by
  rw [std_repr_length]
  split_ifs
  · exact hk
  · exact digits_length_le_bits tag n k h

theorem ndigits_eq_length (tag : Tag) (n : Nat) :
    (if (n : Int) = 0 then 1 else positive_ndigits tag n) = (std_repr tag n).length := by
  rw [std_repr_length]
  by_cases h : n = 0
  · subst h; simp
  · have h' : ¬ (n : Int) = 0 := by exact_mod_cast h
    rw [if_neg h, if_neg h', positive_ndigits_natCast tag n (Nat.pos_of_ne_zero h)]

theorem digitChars_std (tag : Tag) (n : Nat) :
    digitChars tag (std_repr tag n).length n = std_repr tag n := by
  by_cases h : n = 0
  · subst h
    rw [std_repr_length, if_pos rfl, digitChars_one_zero, std_repr_eq, if_pos rfl]
  · have hl := std_repr_length tag n
    rw [if_neg h] at hl
    obtain ⟨m, hm⟩ : ∃ m, (Nat.digits tag.base n).length = m + 1 :=
      ⟨(Nat.digits tag.base n).length - 1, by
        have hne : Nat.digits tag.base n ≠ [] := Nat.digits_ne_nil_iff_ne_zero.mpr h
        have := List.length_pos.mpr hne
        omega⟩
    rw [hl, hm, digitChars_eq_digits tag m n hm, std_repr_eq, if_neg h]

end details

theorem IntType.natAbs_lt (T : IntType) (x : Int) (h : T.inRange x) :
    x.natAbs < 2 ^ T.bits := by
  have h2 := T.two_pow_bits
  have hp : (0 : Int) < 2 ^ (T.bits - 1) := by positivity
  have hc : ((2 ^ T.bits : Nat) : Int) = 2 ^ T.bits := by push_cast; rfl
  unfold IntType.inRange IntType.minVal IntType.maxVal at h
  zify
  rw [abs_lt]
  split_ifs at h <;> constructor <;> omega

namespace details

theorem std_repr_length_lt (tag : Tag) (T : IntType) (x : Int) (h : T.inRange x) :
    (std_repr tag x.natAbs).length < SIZE_MOD := by
  have h1 := std_repr_length_le tag x.natAbs T.bits (T.natAbs_lt x h) T.bits_pos
  have h2 := T.bits_lt
  unfold SIZE_MOD
  omega

/-- Away from the minimum of a signed type, `format_int` checks the capacity against the
length of sign and digits and then runs `_format_int` on the magnitude with that sign and
the number of digits of the standard representation. -/
theorem format_int_eq (tag : Tag) (T : IntType) (x : Int) (pad plus : Bool)
    (width buf buf_len : Nat) (mem : Mem) (hx : T.inRange x)
    (hmin : T.signed = true → x ≠ T.minVal) :
    format_int tag T x pad plus width buf buf_len mem =
      if buf_len <
          (std_repr tag x.natAbs).length + (signChar x plus).toList.length + 1 then
        (.error buffer_too_small, mem)
      else
        (.ok (_format_int tag (x.natAbs : Int) (signChar x plus)
            (std_repr tag x.natAbs).length width pad buf mem).1,
          (_format_int tag (x.natAbs : Int) (signChar x plus)
            (std_repr tag x.natAbs).length width pad buf mem).2) := by
  by_cases h0 : 0 ≤ x
  · obtain ⟨n, rfl⟩ := Int.eq_ofNat_of_zero_le h0
    have hs : signChar (n : Int) plus = if plus then some '+' else none := by
      unfold signChar
      rw [if_neg (by omega)]
    simp only [format_int, ge_iff_le, h0, if_true, Int.natAbs_ofNat, ndigits_eq_length, hs]
    cases plus <;> simp
  · have hlt : x < 0 := by omega
    have hsg : T.signed = true := by
      by_contra hns
      have := T.nonneg_of_unsigned x hx (by simpa using hns)
      omega
    obtain ⟨-, hw⟩ := T.neg_eq x hx hlt (hmin hsg)
    have hn : -x = (x.natAbs : Int) := by omega
    have hpos : 0 < x.natAbs := by omega
    have hs : signChar x plus = some '-' := by
      unfold signChar
      rw [if_pos hlt]
    have hne : ¬ ((x.natAbs : Int) = 0) := by omega
    have hl := ndigits_eq_length tag x.natAbs
    rw [if_neg hne] at hl
    simp only [format_int, ge_iff_le, h0, if_false, hw, hs, hn, hl]
    simp

/-- Away from the minimum of a signed type, `int_formatted_length` is the length of sign
and digits. -/
theorem int_formatted_length_eq (tag : Tag) (T : IntType) (x : Int) (plus : Bool)
    (hx : T.inRange x) (hmin : T.signed = true → x ≠ T.minVal) :
    int_formatted_length tag T x plus =
      (std_repr tag x.natAbs).length + (signChar x plus).toList.length := by
  by_cases h0 : 0 ≤ x
  · obtain ⟨n, rfl⟩ := Int.eq_ofNat_of_zero_le h0
    have hs : signChar (n : Int) plus = if plus then some '+' else none := by
      unfold signChar
      rw [if_neg (by omega)]
    simp only [int_formatted_length, ge_iff_le, h0, if_true, Int.natAbs_ofNat,
      ndigits_eq_length, hs]
    cases plus <;> simp
  · have hlt : x < 0 := by omega
    have hsg : T.signed = true := by
      by_contra hns
      have := T.nonneg_of_unsigned x hx (by simpa using hns)
      omega
    obtain ⟨hng, -⟩ := T.neg_eq x hx hlt (hmin hsg)
    have hn : -x = (x.natAbs : Int) := by omega
    have hs : signChar x plus = some '-' := by
      unfold signChar
      rw [if_pos hlt]
    have hne : ¬ ((x.natAbs : Int) = 0) := by omega
    have hl := ndigits_eq_length tag x.natAbs
    rw [if_neg hne] at hl
    simp only [int_formatted_length, ge_iff_le, h0, if_false, hng, hs, hn, hl]
    simp

end details

/-! ## The formatter: general results -/

namespace integer_formatter

variable {tag : Tag}

theorem formatted_length_eq (f : integer_formatter tag) (T : IntType) (x : Int)
    (hx : T.inRange x) (hmin : T.signed = true → x ≠ T.minVal) :
    f.formatted_length T x =
      (details.std_repr tag x.natAbs).length + (details.signChar x f.plus_sign_).toList.length :=
  details.int_formatted_length_eq tag T x f.plus_sign_ hx hmin

theorem formatted_length_w_eq_max (f : integer_formatter tag) (T : IntType) (x : Int)
    (width : Nat) : f.formatted_length_w T x width = max (f.formatted_length T x) width := by
  unfold formatted_length_w
  dsimp only
  split_ifs <;> omega

/-- With a capacity that is not above the unpadded length, `format_write` throws without
a store, away from the minimum of a signed type. -/
theorem format_write_too_small (f : integer_formatter tag) (T : IntType) (x : Int)
    (width buf c : Nat) (mem : Mem) (hx : T.inRange x)
    (hmin : T.signed = true → x ≠ T.minVal) (hc : c ≤ f.formatted_length T x) :
    f.format_write T x width buf c mem = (.error details.buffer_too_small, mem) := by
  rw [f.formatted_length_eq T x hx hmin] at hc
  unfold format_write
  rw [details.format_int_eq tag T x _ _ _ _ _ _ hx hmin, if_pos (by omega)]

/-- With a capacity above the unpadded length, `format_write` is `_format_int` on the
magnitude, away from the minimum of a signed type. -/
theorem format_write_ok (f : integer_formatter tag) (T : IntType) (x : Int)
    (width buf c : Nat) (mem : Mem) (hx : T.inRange x)
    (hmin : T.signed = true → x ≠ T.minVal) (hc : f.formatted_length T x + 1 ≤ c) :
    f.format_write T x width buf c mem =
      (.ok (f.formatted_length_w T x width),
        (details._format_int tag (x.natAbs : Int) (details.signChar x f.plus_sign_)
          (details.std_repr tag x.natAbs).length width f.pad_zeros_ buf mem).2) := by
  rw [formatted_length_w_eq_max]
  rw [f.formatted_length_eq T x hx hmin] at hc ⊢
  unfold format_write
  rw [details.format_int_eq tag T x _ _ _ _ _ _ hx hmin, if_neg (by omega),
    details._format_int_fst]

/-- The text of `format(x, width)`, away from the minimum of a signed type. -/
theorem format_w_eq (f : integer_formatter tag) (T : IntType) (x : Int) (width : Nat)
    (hx : T.inRange x) (hmin : T.signed = true → x ≠ T.minVal) :
    f.format_w T x width =
      .ok (details.layout (details.signChar x f.plus_sign_).toList
        (details.std_repr tag x.natAbs) width f.pad_zeros_) := by
  unfold format_w
  dsimp only
  rw [f.format_write_ok T x width 0 _ Mem.fresh hx hmin
    (by rw [formatted_length_w_eq_max]; omega)]
  dsimp only
  rw [formatted_length_w_eq_max, f.formatted_length_eq T x hx hmin]
  have h := details._format_int_read tag x.natAbs (details.signChar x f.plus_sign_)
    (details.std_repr tag x.natAbs).length width f.pad_zeros_ 0 Mem.fresh
    (details.std_repr_length_pos tag _) (details.std_repr_length_lt tag T x hx)
  rw [h, details.digitChars_std]

/-- The text of `format(x)`, away from the minimum of a signed type. -/
theorem format_eq (f : integer_formatter tag) (T : IntType) (x : Int)
    (hx : T.inRange x) (hmin : T.signed = true → x ≠ T.minVal) :
    f.format T x =
      .ok ((details.signChar x f.plus_sign_).toList ++ details.std_repr tag x.natAbs) := by
  unfold format
  dsimp only
  rw [f.format_write_ok T x 0 0 _ Mem.fresh hx hmin le_rfl]
  dsimp only
  rw [f.formatted_length_eq T x hx hmin]
  have h := details._format_int_read tag x.natAbs (details.signChar x f.plus_sign_)
    (details.std_repr tag x.natAbs).length 0 f.pad_zeros_ 0 Mem.fresh
    (details.std_repr_length_pos tag _) (details.std_repr_length_lt tag T x hx)
  rw [max_eq_left (Nat.zero_le _)] at h
  rw [h, details.digitChars_std]
  simp [details.layout]

end integer_formatter

/-! ## The textual contract -/

theorem format_default_nonneg {tag : Tag} (T : IntType) (x : Int) (hx : T.inRange x)
    (h0 : 0 ≤ x) :
    (⟨false, false⟩ : integer_formatter tag).format T x = .ok (details.std_repr tag x.toNat) := by
  have hmin : T.signed = true → x ≠ T.minVal := by
    intro hs
    have hp : (0 : Int) < 2 ^ (T.bits - 1) := by positivity
    unfold IntType.minVal
    rw [if_pos hs]
    omega
  rw [integer_formatter.format_eq _ T x hx hmin]
  have e : x.natAbs = x.toNat := by omega
  have hs : details.signChar x false = none := by
    unfold details.signChar
    rw [if_neg (by omega)]
    rfl
  rw [e, hs]
  rfl

theorem stdDigitChar_eq_zero (tag : Tag) (d : Nat) (h : d < tag.base)
    (hc : details.stdDigitChar tag d = '0') : d = 0 := by
  revert hc
  cases tag <;> simp only [Tag.base] at h <;> interval_cases d <;> decide

/-- The standard representation of a positive number does not start with `'0'`. -/
theorem std_repr_no_leading_zero (tag : Tag) (n : Nat) (hn : n ≠ 0) :
    (details.std_repr tag n).head? ≠ some '0' := by
  have hb := tag.one_lt_base
  have hne : Nat.digits tag.base n ≠ [] := Nat.digits_ne_nil_iff_ne_zero.mpr hn
  have hlast := Nat.getLast_digit_ne_zero tag.base hn
  rw [details.std_repr_eq, if_neg hn, List.head?_map, List.head?_reverse,
    List.getLast?_eq_getLast _ hne]
  intro h
  simp only [Option.map_some', Option.some.injEq] at h
  exact hlast (stdDigitChar_eq_zero tag _
    (Nat.digits_lt_base hb (List.getLast_mem hne)) h)

/-- C1: for a non-negative `x` of a fixed-width integer type, `dec()`, `oct()`, `hex()` and
`Hex()` with their default flags format `x` as its standard representation in base 10, 8,
16 and 16 (the digits of `Nat.toDigits`, most significant first and without leading zeros,
in upper case for `Hex()`), and they format zero as `"0"`. -/
theorem C1_format_standard_representation (T : IntType) (x : Int) (hx : T.inRange x)
    (h0 : 0 ≤ x) :
    dec.format T x = .ok (Nat.toDigits 10 x.toNat) ∧
    oct.format T x = .ok (Nat.toDigits 8 x.toNat) ∧
    hex.format T x = .ok (Nat.toDigits 16 x.toNat) ∧
    Hex.format T x = .ok ((Nat.toDigits 16 x.toNat).map Char.toUpper) ∧
    (x = 0 → dec.format T x = .ok ['0'] ∧ oct.format T x = .ok ['0'] ∧
      hex.format T x = .ok ['0'] ∧ Hex.format T x = .ok ['0']) := by
  have h1 : dec.format T x = .ok (Nat.toDigits 10 x.toNat) := format_default_nonneg T x hx h0
  have h2 : oct.format T x = .ok (Nat.toDigits 8 x.toNat) := format_default_nonneg T x hx h0
  have h3 : hex.format T x = .ok (Nat.toDigits 16 x.toNat) := format_default_nonneg T x hx h0
  have h4 : Hex.format T x = .ok ((Nat.toDigits 16 x.toNat).map Char.toUpper) :=
    format_default_nonneg T x hx h0
  refine ⟨h1, h2, h3, h4, ?_⟩
  rintro rfl
  exact ⟨h1, h2, h3, h4⟩

/-- C1 at `x = 255` of type `int`. -/
theorem C1_format_standard_representation_witness :
    int32.inRange 255 ∧ (0 : Int) ≤ 255 ∧
    dec.format int32 255 = .ok ['2', '5', '5'] ∧
    oct.format int32 255 = .ok ['3', '7', '7'] ∧
    hex.format int32 255 = .ok ['f', 'f'] ∧
    Hex.format int32 255 = .ok ['F', 'F'] :=
  have h := C1_format_standard_representation int32 255 (by decide) (by decide)
  ⟨by decide, by decide, h.1, h.2.1, h.2.2.1, h.2.2.2.1⟩

/-- C2: for `x` other than the minimum of its signed type and every flag setting, the
unpadded text `format(x)` is the sign followed by the default-flag rendering of `|x|`, the
sign being `"-"` for `x < 0`, `"+"` for `x ≥ 0` with the plus-sign flag set, and empty
otherwise. -/
theorem C2_format_sign_then_magnitude {tag : Tag} (f : integer_formatter tag) (T : IntType)
    (x : Int) (hx : T.inRange x) (hmin : T.signed = true → x ≠ T.minVal) :
    (⟨false, false⟩ : integer_formatter tag).format T (x.natAbs : Int) =
      .ok (details.std_repr tag x.natAbs) ∧
    f.format T x =
      .ok ((if x < 0 then ['-'] else if f.plus_sign = true then ['+'] else []) ++
        details.std_repr tag x.natAbs) := by
  constructor
  · have hr : T.inRange (x.natAbs : Int) := by
      by_cases h0 : 0 ≤ x
      · have e : (x.natAbs : Int) = x := by omega
        rw [e]; exact hx
      · have hsg : T.signed = true := by
          by_contra hns
          have := T.nonneg_of_unsigned x hx (by simpa using hns)
          omega
        have e : (x.natAbs : Int) = -x := by omega
        rw [e]
        exact T.inRange_neg x hx (by omega) (hmin hsg)
    have := @format_default_nonneg tag T (x.natAbs : Int) hr (by omega)
    rwa [Int.toNat_ofNat] at this
  · rw [f.format_eq T x hx hmin]
    unfold details.signChar integer_formatter.plus_sign
    split_ifs <;> rfl

/-- C2 at `x = -42` of type `int`, decimal, plus-sign flag set. -/
theorem C2_format_sign_then_magnitude_witness :
    int32.inRange (-42) ∧ (int32.signed = true → (-42 : Int) ≠ int32.minVal) ∧
    dec.format int32 ((-42 : Int).natAbs : Int) = .ok ['4', '2'] ∧
    (dec.set_plus_sign true).format int32 (-42) = .ok ['-', '4', '2'] :=
  have h := C2_format_sign_then_magnitude (dec.set_plus_sign true) int32 (-42)
    (by decide) (by decide)
  ⟨by decide, by decide, h.1, h.2⟩

theorem signChar_toList (x : Int) (plus : Bool) :
    (details.signChar x plus).toList =
      if x < 0 then ['-'] else if plus = true then ['+'] else [] := by
  unfold details.signChar
  split_ifs <;> rfl

/-- C3: for `x` other than the minimum of its signed type, with the zero-pad flag set and a
width `w` above `n = formatted_length(x)`, `format(x, w)` is the sign character (if any),
then exactly `w - n` characters `'0'`, then the digits of `|x|`; its length is `w`. -/
theorem C3_zero_fill_between_sign_and_digits {tag : Tag} (f : integer_formatter tag)
    (T : IntType) (x : Int) (w : Nat) (hx : T.inRange x)
    (hmin : T.signed = true → x ≠ T.minVal) (hp : f.pad_zeros = true)
    (hw : f.formatted_length T x < w) :
    f.format_w T x w =
      .ok ((if x < 0 then ['-'] else if f.plus_sign = true then ['+'] else []) ++
        List.replicate (w - f.formatted_length T x) '0' ++ details.std_repr tag x.natAbs) ∧
    ((if x < 0 then ['-'] else if f.plus_sign = true then ['+'] else []) ++
        List.replicate (w - f.formatted_length T x) '0' ++
        details.std_repr tag x.natAbs).length = w := by
  have hl := f.formatted_length_eq T x hx hmin
  have hp' : f.pad_zeros_ = true := hp
  rw [signChar_toList] at hl
  have e : f.format_w T x w =
      .ok ((if x < 0 then ['-'] else if f.plus_sign = true then ['+'] else []) ++
        List.replicate (w - f.formatted_length T x) '0' ++ details.std_repr tag x.natAbs) := by
    rw [f.format_w_eq T x w hx hmin, signChar_toList]
    unfold details.layout integer_formatter.plus_sign
    dsimp only
    rw [if_pos (by omega), if_pos hp', hl, Nat.add_comm]
  refine ⟨e, ?_⟩
  simp only [List.length_append, List.length_replicate, integer_formatter.plus_sign]
  omega

/-- C3 at the two examples of the claim: decimal, zero-padded, `format(-42, 6)` and
`format(7, 3)`. -/
theorem C3_zero_fill_between_sign_and_digits_witness :
    (int32.inRange (-42) ∧ (int32.signed = true → (-42 : Int) ≠ int32.minVal) ∧
      (dec.set_pad_zeros true).pad_zeros = true ∧
      (dec.set_pad_zeros true).formatted_length int32 (-42) < 6 ∧
      (dec.set_pad_zeros true).format_w int32 (-42) 6 = .ok ['-', '0', '0', '0', '4', '2']) ∧
    (int32.inRange 7 ∧ (int32.signed = true → (7 : Int) ≠ int32.minVal) ∧
      (dec.set_pad_zeros true).formatted_length int32 7 < 3 ∧
      (dec.set_pad_zeros true).format_w int32 7 3 = .ok ['0', '0', '7']) :=
  ⟨⟨by decide, by decide, rfl, by decide,
      (C3_zero_fill_between_sign_and_digits (dec.set_pad_zeros true) int32 (-42) 6
        (by decide) (by decide) rfl (by decide)).1⟩,
    ⟨by decide, by decide, by decide,
      (C3_zero_fill_between_sign_and_digits (dec.set_pad_zeros true) int32 7 3
        (by decide) (by decide) rfl (by decide)).1⟩⟩

/-- C4: for `x` other than the minimum of its signed type, with the zero-pad flag clear and
a width `w` above `n = formatted_length(x)`, `format(x, w)` is exactly `w - n` spaces
followed by the unpadded text `format(x)` (sign first); its length is `w`. -/
theorem C4_space_fill_before_sign {tag : Tag} (f : integer_formatter tag)
    (T : IntType) (x : Int) (w : Nat) (hx : T.inRange x)
    (hmin : T.signed = true → x ≠ T.minVal) (hp : f.pad_zeros = false)
    (hw : f.formatted_length T x < w) :
    ∃ s : List Char, f.format T x = .ok s ∧
      f.format_w T x w = .ok (List.replicate (w - f.formatted_length T x) ' ' ++ s) ∧
      (List.replicate (w - f.formatted_length T x) ' ' ++ s).length = w ∧
      s = (if x < 0 then ['-'] else if f.plus_sign = true then ['+'] else []) ++
        details.std_repr tag x.natAbs := by
  have hl := f.formatted_length_eq T x hx hmin
  have hp' : f.pad_zeros_ = false := hp
  refine ⟨(details.signChar x f.plus_sign_).toList ++ details.std_repr tag x.natAbs,
    f.format_eq T x hx hmin, ?_, ?_, ?_⟩
  · rw [f.format_w_eq T x w hx hmin]
    unfold details.layout
    dsimp only
    rw [if_pos (by omega), hp', hl, Nat.add_comm (details.std_repr tag x.natAbs).length]
    simp
  · simp only [List.length_append, List.length_replicate]
    omega
  · rw [signChar_toList]; rfl

/-- C4 at `x = -42` of type `int`, decimal, width 6. -/
theorem C4_space_fill_before_sign_witness :
    int32.inRange (-42) ∧ (int32.signed = true → (-42 : Int) ≠ int32.minVal) ∧
      dec.pad_zeros = false ∧ dec.formatted_length int32 (-42) < 6 ∧
      ∃ s : List Char, dec.format int32 (-42) = .ok s ∧
        dec.format_w int32 (-42) 6 =
          .ok (List.replicate (6 - dec.formatted_length int32 (-42)) ' ' ++ s) ∧
        (List.replicate (6 - dec.formatted_length int32 (-42)) ' ' ++ s).length = 6 ∧
        s = (if (-42 : Int) < 0 then ['-'] else if dec.plus_sign = true then ['+'] else []) ++
          details.std_repr .dec_t (-42 : Int).natAbs :=
  ⟨by decide, by decide, rfl, by decide,
    C4_space_fill_before_sign dec int32 (-42) 6 (by decide) (by decide) rfl (by decide)⟩

theorem format_w_space_fill_example : dec.format_w int32 (-42) 6 = .ok [' ', ' ', ' ', '-', '4', '2'] := by
  decide

/-! ## Capacity and sentinel -/

/-- C5: with a width above the unpadded length the capacity check of `format_int` does not
cover the padded text. `dec().format_write(7, 5, buf, 2)` on an `int` succeeds with
length 5 and stores to the indices 0 to 5 of a buffer of capacity 2. -/
theorem C5_padded_write_exceeds_capacity :
    (dec.format_write int32 7 5 0 2 Mem.fresh).1 = .ok 5 ∧
    (dec.format_write int32 7 5 0 2 Mem.fresh).2.written = [5, 4, 3, 2, 1, 0] ∧
    ¬ (5 + 1 ≤ 2) := by
  decide

/-- C6: at the minimum of `short` the length that `formatted_length` reports (6, from the
promoted negation 32768) and the length that `format_int` checks the capacity against
(2, from the negation converted back to `short`) differ: `format_write` with capacity
`formatted_length(x) = 6` does not throw, and stores to the indices 0, 1 and 2. -/
theorem C6_short_min_capacity_not_rejected :
    int16.inRange (-32768) ∧
    dec.formatted_length int16 (-32768) = 6 ∧
    (dec.format_write int16 (-32768) 0 0 6 Mem.fresh).1 = .ok 2 ∧
    (dec.format_write int16 (-32768) 0 0 6 Mem.fresh).2.written = [2, 1, 0] := by
  decide

theorem Mem.cell_mem_read (mem : Mem) (p n i : Nat) (h : i < n) :
    mem.cell (p + i) ∈ mem.read p n := by
  unfold Mem.read
  exact List.mem_map.mpr ⟨p + i, by rw [List.mem_range'_1]; omega, rfl⟩

theorem stdDigitChar_ne_nul (tag : Tag) (d : Nat) (h : d < tag.base) :
    details.stdDigitChar tag d ≠ Char.ofNat 0 := by
  cases tag <;> simp only [Tag.base] at h <;> interval_cases d <;> decide

theorem std_repr_ne_nul (tag : Tag) (n : Nat) (c : Char) (hc : c ∈ details.std_repr tag n) :
    c ≠ Char.ofNat 0 := by
  rw [details.std_repr_eq] at hc
  split_ifs at hc with h
  · simp only [List.mem_singleton] at hc
    subst hc
    decide
  · obtain ⟨d, hd, rfl⟩ := List.mem_map.mp hc
    rw [List.mem_reverse] at hd
    exact stdDigitChar_ne_nul tag d (Nat.digits_lt_base tag.one_lt_base hd)

theorem layout_ne_nul (tag : Tag) (x : Int) (plus pad : Bool) (n w : Nat) (c : Char)
    (hc : c ∈ details.layout (details.signChar x plus).toList (details.std_repr tag n) w pad) :
    c ≠ Char.ofNat 0 := by
  have hs : ∀ c ∈ (details.signChar x plus).toList, c ≠ Char.ofNat 0 := by
    intro c hc
    rw [signChar_toList] at hc
    split_ifs at hc <;> simp only [List.mem_singleton, List.not_mem_nil] at hc <;>
      subst hc <;> decide
  have hb := std_repr_ne_nul tag n
  unfold details.layout at hc
  dsimp only at hc
  split_ifs at hc <;> simp only [List.mem_append, List.mem_replicate] at hc
  · rcases hc with (hc | ⟨-, rfl⟩) | hc
    · exact hs c hc
    · decide
    · exact hb c hc
  · rcases hc with (⟨-, rfl⟩ | hc) | hc
    · decide
    · exact hs c hc
    · exact hb c hc
  · rcases hc with hc | hc
    · exact hs c hc
    · exact hb c hc

/-- C7: for `x` other than the minimum of its signed type and a capacity of at least
`formatted_length(x, w) + 1`, `format_write` succeeds and returns
`formatted_length(x, w) = max(formatted_length(x), w)`; the buffer holds the sentinel at
that index and at no index below it; and `format(x)` has `formatted_length(x)`
characters. -/
theorem C7_write_length_and_sentinel {tag : Tag} (f : integer_formatter tag) (T : IntType)
    (x : Int) (w buf c : Nat) (mem : Mem) (hx : T.inRange x)
    (hmin : T.signed = true → x ≠ T.minVal) (hc : f.formatted_length_w T x w + 1 ≤ c) :
    (f.format_write T x w buf c mem).1 = .ok (f.formatted_length_w T x w) ∧
    f.formatted_length_w T x w = max (f.formatted_length T x) w ∧
    (f.format_write T x w buf c mem).2.cell (buf + f.formatted_length_w T x w) = Char.ofNat 0 ∧
    (∀ i, i < f.formatted_length_w T x w →
      (f.format_write T x w buf c mem).2.cell (buf + i) ≠ Char.ofNat 0) ∧
    ∃ s : List Char, f.format T x = .ok s ∧ s.length = f.formatted_length T x := by
  have hmax := f.formatted_length_w_eq_max T x w
  have hl := f.formatted_length_eq T x hx hmin
  have hok := f.format_write_ok T x w buf c mem hx hmin (by omega)
  have h1 := details.std_repr_length_pos tag x.natAbs
  have h2 := details.std_repr_length_lt tag T x hx
  refine ⟨by rw [hok], hmax, ?_, ?_, ?_⟩
  · rw [hok, hmax, hl]
    exact details._format_int_sentinel _ _ _ _ _ _ _ _
  · intro i hi
    rw [hok]
    dsimp only
    have hr := details._format_int_read tag x.natAbs (details.signChar x f.plus_sign_)
      (details.std_repr tag x.natAbs).length w f.pad_zeros_ buf mem h1 h2
    rw [details.digitChars_std] at hr
    rw [hmax, hl] at hi
    have hm := Mem.cell_mem_read (details._format_int tag (x.natAbs : Int)
      (details.signChar x f.plus_sign_) (details.std_repr tag x.natAbs).length w
      f.pad_zeros_ buf mem).2 buf _ i hi
    rw [hr] at hm
    exact layout_ne_nul tag x _ _ _ _ _ hm
  · refine ⟨_, f.format_eq T x hx hmin, ?_⟩
    rw [hl, List.length_append]
    omega

/-- C7 at `x = -42` of type `int`, decimal, width 6, capacity 7. -/
theorem C7_write_length_and_sentinel_witness :
    int32.inRange (-42) ∧ (int32.signed = true → (-42 : Int) ≠ int32.minVal) ∧
    dec.formatted_length_w int32 (-42) 6 + 1 ≤ 7 ∧
    (dec.format_write int32 (-42) 6 0 7 Mem.fresh).1 = .ok 6 ∧
    (dec.format_write int32 (-42) 6 0 7 Mem.fresh).2.cell (0 + 6) = Char.ofNat 0 :=
  have h := C7_write_length_and_sentinel dec int32 (-42) 6 0 7 Mem.fresh
    (by decide) (by decide) (by decide)
  ⟨by decide, by decide, by decide, h.1, h.2.2.1⟩

/-! ## The minimum of a signed type -/

/-- C8: at the minimum of `int` the negation wraps to the minimum itself, the decimal
`formatted_length` is 2 and `format` gives `"-0"`, where `2 ^ 31` has the ten digits
`2147483648`. -/
theorem C8_int_min_negation_wraps :
    int32.inRange (-2147483648) ∧ (-2147483648 : Int) = int32.minVal ∧
    int32.neg (-2147483648) = -2147483648 ∧
    dec.formatted_length int32 (-2147483648) = 2 ∧
    dec.format int32 (-2147483648) = .ok ['-', '0'] ∧
    Nat.toDigits 10 (2 ^ 31) = ['2', '1', '4', '7', '4', '8', '3', '6', '4', '8'] := by
  decide

/-- C10: at the minimum of `int` the argument that `int_formatted_length` and `format_int`
pass to `positive_ndigits` is the minimum itself, not a positive value; in base 8 the digit
count that `format_int` then passes on to `write_digits` is 0, and `nd - 1` wraps to
`2 ^ 64 - 1`. -/
theorem C10_int_min_violates_precondition :
    int32.inRange (-2147483648) ∧
    ¬ (0 < int32.neg (-2147483648)) ∧
    ¬ (0 < int32.wrap (int32.neg (-2147483648))) ∧
    details.positive_ndigits .oct_t (int32.wrap (int32.neg (-2147483648))) = 0 ∧
    (SIZE_MOD - 1 + details.positive_ndigits .oct_t (int32.wrap (int32.neg (-2147483648))))
      % SIZE_MOD = 2 ^ 64 - 1 := by
  decide

/-- Away from the minimum of a signed type, the arguments of `positive_ndigits` are
positive and the digit count handed to `write_digits` is at least 1. -/
theorem digit_engine_precondition (tag : Tag) (T : IntType) (x : Int) (hx : T.inRange x)
    (hmin : T.signed = true → x ≠ T.minVal) :
    (x < 0 → 0 < T.neg x ∧ 0 < T.wrap (T.neg x) ∧
      1 ≤ details.positive_ndigits tag (T.wrap (T.neg x))) ∧
    (0 < x → 1 ≤ details.positive_ndigits tag x) := by
  constructor
  · intro hlt
    have hsg : T.signed = true := by
      by_contra hns
      have := T.nonneg_of_unsigned x hx (by simpa using hns)
      omega
    obtain ⟨h1, h2⟩ := T.neg_eq x hx hlt (hmin hsg)
    have hn : -x = (x.natAbs : Int) := by omega
    have hl := details.ndigits_eq_length tag x.natAbs
    rw [if_neg (by omega)] at hl
    rw [h2, h1, hn, hl]
    exact ⟨by omega, by omega, details.std_repr_length_pos tag _⟩
  · intro hpos
    obtain ⟨n, rfl⟩ := Int.eq_ofNat_of_zero_le (le_of_lt hpos)
    have hl := details.ndigits_eq_length tag n
    rw [if_neg (by omega)] at hl
    rw [hl]
    exact details.std_repr_length_pos tag _

/-! ## Round trip -/

theorem std_digit_value_stdDigitChar (tag : Tag) (d : Nat) (h : d < tag.base) :
    std_digit_value (details.stdDigitChar tag d) = some d := by
  cases tag <;> simp only [Tag.base] at h <;> interval_cases d <;> decide

theorem std_parse_digits_append (base : Nat) (l : List Char) (c : Char) (d acc : Nat)
    (hc : std_digit_value c = some d) (hd : d < base) :
    std_parse_digits base (l ++ [c]) acc =
      (std_parse_digits base l acc).map (fun a => a * base + d) := by
  induction l generalizing acc with
  | nil => simp [std_parse_digits, hc, hd]
  | cons e l ih =>
    simp only [List.cons_append, std_parse_digits]
    cases std_digit_value e with
    | none => rfl
    | some v =>
      dsimp only
      split_ifs
      · exact ih _
      · rfl

theorem std_parse_digits_digits (tag : Tag) (n : Nat) :
    std_parse_digits tag.base ((Nat.digits tag.base n).reverse.map (details.stdDigitChar tag)) 0 =
      some n := by
  have hb := tag.one_lt_base
  induction n using Nat.strong_induction_on with
  | _ n ih =>
    by_cases hn : n = 0
    · subst hn
      simp [std_parse_digits]
    · have hpos : 0 < n := Nat.pos_of_ne_zero hn
      rw [Nat.digits_def' hb hpos, List.reverse_cons, List.map_append, List.map_singleton,
        std_parse_digits_append _ _ _ (n % tag.base) _
          (std_digit_value_stdDigitChar tag _ (Nat.mod_lt _ (by omega)))
          (Nat.mod_lt _ (by omega)),
        ih (n / tag.base) (Nat.div_lt_self hpos hb)]
      simp only [Option.map_some']
      rw [Nat.div_add_mod']

theorem std_parse_digits_std_repr (tag : Tag) (n : Nat) :
    std_parse_digits tag.base (details.std_repr tag n) 0 = some n := by
  rw [details.std_repr_eq]
  split_ifs with h
  · subst h
    have := tag.one_lt_base
    have e : std_digit_value '0' = some 0 := by decide
    simp only [std_parse_digits, e]
    rw [if_pos (by omega)]
    simp
  · exact std_parse_digits_digits tag n

theorem std_repr_cons (tag : Tag) (n : Nat) :
    ∃ c cs, details.std_repr tag n = c :: cs ∧ c ≠ '-' ∧ c ≠ '+' := by
  have hl := details.std_repr_length_pos tag n
  have hp := std_parse_digits_std_repr tag n
  cases hs : details.std_repr tag n with
  | nil => rw [hs] at hl; simp at hl
  | cons c cs =>
    refine ⟨c, cs, rfl, ?_, ?_⟩
    · rintro rfl
      rw [hs] at hp
      have e : std_digit_value '-' = none := by decide
      simp [std_parse_digits, e] at hp
    · rintro rfl
      rw [hs] at hp
      have e : std_digit_value '+' = none := by decide
      simp [std_parse_digits, e] at hp

theorem std_parse_int_format (tag : Tag) (x : Int) (plus : Bool) :
    std_parse_int tag.base
      ((details.signChar x plus).toList ++ details.std_repr tag x.natAbs) = some x := by
  obtain ⟨c, cs, hs, hc1, hc2⟩ := std_repr_cons tag x.natAbs
  have hp := std_parse_digits_std_repr tag x.natAbs
  rw [signChar_toList]
  split_ifs with h1 h2
  · have hne : details.std_repr tag x.natAbs ≠ [] := by rw [hs]; simp
    simp only [List.singleton_append, std_parse_int, if_true, if_neg hne, hp, Option.map_some']
    exact congrArg some (by dsimp only; omega)
  · have hne : details.std_repr tag x.natAbs ≠ [] := by rw [hs]; simp
    have hd : ¬ ('+' = '-') := by decide
    simp only [List.singleton_append, std_parse_int, if_true, if_neg hne, if_neg hd, hp,
      Option.map_some']
    exact congrArg some (by dsimp only; omega)
  · rw [List.nil_append]
    rw [hs] at hp ⊢
    simp only [std_parse_int, if_neg hc1, if_neg hc2, hp, Option.map_some']
    exact congrArg some (by dsimp only; omega)

/-- C9: round trip. For `x` other than the minimum of its signed type, in each base and
with either setting of the plus-sign flag, a standard signed integer parser for the base
reads the unpadded text `format(x)` back as `x`; hence `format` is injective on such
values. -/
theorem C9_format_parse_round_trip {tag : Tag} (f : integer_formatter tag) (T : IntType)
    (x y : Int) (hx : T.inRange x) (hxmin : T.signed = true → x ≠ T.minVal)
    (hy : T.inRange y) (hymin : T.signed = true → y ≠ T.minVal) :
    (∃ s : List Char, f.format T x = .ok s ∧ std_parse_int tag.base s = some x) ∧
    (f.format T x = f.format T y → x = y) := by
  have hpx := std_parse_int_format tag x f.plus_sign_
  have hpy := std_parse_int_format tag y f.plus_sign_
  refine ⟨⟨_, f.format_eq T x hx hxmin, hpx⟩, ?_⟩
  intro h
  rw [f.format_eq T x hx hxmin, f.format_eq T y hy hymin] at h
  have h' := Except.ok.inj h
  rw [h'] at hpx
  rw [hpx] at hpy
  exact Option.some.inj hpy

/-- C9 at `x = -255` and `y = 255` of type `int`, upper-case hexadecimal. -/
theorem C9_format_parse_round_trip_witness :
    int32.inRange (-255) ∧ (int32.signed = true → (-255 : Int) ≠ int32.minVal) ∧
    int32.inRange 255 ∧ (int32.signed = true → (255 : Int) ≠ int32.minVal) ∧
    (∃ s : List Char, Hex.format int32 (-255) = .ok s ∧
      std_parse_int Tag.Hex_t.base s = some (-255)) ∧
    (Hex.format int32 (-255) = Hex.format int32 255 → (-255 : Int) = 255) :=
  ⟨by decide, by decide, by decide, by decide,
    C9_format_parse_round_trip Hex int32 (-255) 255 (by decide) (by decide) (by decide)
      (by decide)⟩

theorem std_parse_int_examples :
    std_parse_int 16 ['-', 'F', 'f'] = some (-255) ∧ std_parse_int 10 ['+', '4', '2'] = some 42 ∧
    std_parse_int 8 ['7', '8'] = none ∧ std_parse_int 10 ['-'] = none ∧
    std_parse_int 10 [] = none ∧ std_parse_int 10 ['1', '-'] = none := by
  decide

/-! ## Flag composition -/

/-- C11: the flag setters are pure and the flags independent. For every formatter `f` and
boolean `v`, `f.pad_zeros(v)` has `pad_zeros() = v`, the plus-sign flag of `f` and the base
of `f`; `f.plus_sign(v)` has `plus_sign() = v`, the zero-pad flag of `f` and the base of
`f`. The setters are functions of the value `f` (the `const` member functions of the
class), so `f` itself is the same value after either call. -/
theorem C11_flag_setters_pure_and_independent {tag : Tag} (f : integer_formatter tag)
    (v : Bool) :
    (f.set_pad_zeros v).pad_zeros = v ∧
    (f.set_pad_zeros v).plus_sign = f.plus_sign ∧
    (f.set_pad_zeros v).base = f.base ∧
    (f.set_plus_sign v).plus_sign = v ∧
    (f.set_plus_sign v).pad_zeros = f.pad_zeros ∧
    (f.set_plus_sign v).base = f.base ∧
    (∀ u : Bool, ((f.set_pad_zeros v).set_plus_sign u).pad_zeros = v ∧
      ((f.set_plus_sign v).set_pad_zeros u).plus_sign = v) :=
  ⟨rfl, rfl, rfl, rfl, rfl, rfl, fun _ => ⟨rfl, rfl⟩⟩

/-- C12: composing the same flag twice is composing it once. For every formatter `f` and
boolean `v`, `f.pad_zeros(v).pad_zeros(v) = f.pad_zeros(v)` and
`f.plus_sign(v).plus_sign(v) = f.plus_sign(v)`; so `formatted_length`, `format` and
`format_write` give the same result for every input. -/
theorem C12_flag_setters_idempotent {tag : Tag} (f : integer_formatter tag) (v : Bool) :
    (f.set_pad_zeros v).set_pad_zeros v = f.set_pad_zeros v ∧
    (f.set_plus_sign v).set_plus_sign v = f.set_plus_sign v ∧
    (∀ (T : IntType) (x : Int) (w buf c : Nat) (mem : Mem),
      ((f.set_pad_zeros v).set_pad_zeros v).formatted_length T x =
        (f.set_pad_zeros v).formatted_length T x ∧
      ((f.set_pad_zeros v).set_pad_zeros v).format T x = (f.set_pad_zeros v).format T x ∧
      ((f.set_pad_zeros v).set_pad_zeros v).format_w T x w =
        (f.set_pad_zeros v).format_w T x w ∧
      ((f.set_pad_zeros v).set_pad_zeros v).format_write T x w buf c mem =
        (f.set_pad_zeros v).format_write T x w buf c mem ∧
      ((f.set_plus_sign v).set_plus_sign v).formatted_length T x =
        (f.set_plus_sign v).formatted_length T x ∧
      ((f.set_plus_sign v).set_plus_sign v).format T x = (f.set_plus_sign v).format T x ∧
      ((f.set_plus_sign v).set_plus_sign v).format_w T x w =
        (f.set_plus_sign v).format_w T x w ∧
      ((f.set_plus_sign v).set_plus_sign v).format_write T x w buf c mem =
        (f.set_plus_sign v).format_write T x w buf c mem) :=
  ⟨rfl, rfl, fun _ _ _ _ _ _ => ⟨rfl, rfl, rfl, rfl, rfl, rfl, rfl, rfl⟩⟩

/-! ## The digit engine -/

/-- The number of digits of a positive number in base `b` is the one `k ≥ 1` with
`b ^ (k - 1) ≤ n < b ^ k`. -/
theorem digits_length_unique (b : Nat) (hb : 1 < b) (n : Nat) (hn : 0 < n) :
    1 ≤ (Nat.digits b n).length ∧
    b ^ ((Nat.digits b n).length - 1) ≤ n ∧ n < b ^ (Nat.digits b n).length ∧
    ∀ j : Nat, 1 ≤ j → b ^ (j - 1) ≤ n → n < b ^ j → j = (Nat.digits b n).length := by
  have hne : Nat.digits b n ≠ [] := Nat.digits_ne_nil_iff_ne_zero.mpr (by omega)
  have h1 : 1 ≤ (Nat.digits b n).length := List.length_pos.mpr hne
  have hlt : n < b ^ (Nat.digits b n).length := Nat.lt_base_pow_length_digits hb
  have hle : b ^ ((Nat.digits b n).length - 1) ≤ n := by
    have h := Nat.base_pow_length_digits_le b n hb (by omega)
    obtain ⟨k, hk⟩ : ∃ k, (Nat.digits b n).length = k + 1 :=
      ⟨(Nat.digits b n).length - 1, by omega⟩
    rw [hk, pow_succ, Nat.mul_comm] at h
    rw [hk, Nat.add_sub_cancel]
    exact Nat.le_of_mul_le_mul_left h (by omega)
  refine ⟨h1, hle, hlt, ?_⟩
  intro j hj hjl hju
  have a1 : b ^ (j - 1) < b ^ (Nat.digits b n).length := lt_of_le_of_lt hjl hlt
  have a2 : b ^ ((Nat.digits b n).length - 1) < b ^ j := lt_of_le_of_lt hle hju
  have b1 := (Nat.pow_lt_pow_iff_right hb).mp a1
  have b2 := (Nat.pow_lt_pow_iff_right hb).mp a2
  omega

theorem positive_ndigits_unique (tag : Tag) (x : Int) (hx : 0 < x) :
    1 ≤ details.positive_ndigits tag x ∧
    (tag.base : Int) ^ (details.positive_ndigits tag x - 1) ≤ x ∧
    x < (tag.base : Int) ^ details.positive_ndigits tag x ∧
    ∀ j : Nat, 1 ≤ j → (tag.base : Int) ^ (j - 1) ≤ x → x < (tag.base : Int) ^ j →
      j = details.positive_ndigits tag x := by
  obtain ⟨n, rfl⟩ := Int.eq_ofNat_of_zero_le (le_of_lt hx)
  have hn : 0 < n := by exact_mod_cast hx
  rw [details.positive_ndigits_natCast tag n hn]
  obtain ⟨h1, h2, h3, h4⟩ := digits_length_unique tag.base tag.one_lt_base n hn
  refine ⟨h1, by exact_mod_cast h2, by exact_mod_cast h3, ?_⟩
  intro j hj hjl hju
  exact h4 j hj (by exact_mod_cast hjl) (by exact_mod_cast hju)

/-- C14: for every integer `x > 0` the decimal `positive_ndigits(x)` (division by 10000 in
chunks, then the lookup of 1 to 4 digits) is the number of decimal digits of `x`: the
unique `k ≥ 1` with `10 ^ (k - 1) ≤ x < 10 ^ k`. -/
theorem C14_decimal_digit_count (x : Int) (hx : 0 < x) :
    1 ≤ details.positive_ndigits .dec_t x ∧
    (10 : Int) ^ (details.positive_ndigits .dec_t x - 1) ≤ x ∧
    x < (10 : Int) ^ details.positive_ndigits .dec_t x ∧
    ∀ j : Nat, 1 ≤ j → (10 : Int) ^ (j - 1) ≤ x → x < (10 : Int) ^ j →
      j = details.positive_ndigits .dec_t x :=
  positive_ndigits_unique .dec_t x hx

/-- C14 at `x = 12345678`, which takes one round of the loop and the four-digit lookup. -/
theorem C14_decimal_digit_count_witness :
    (0 : Int) < 12345678 ∧ details.positive_ndigits .dec_t 12345678 = 8 ∧
    1 ≤ details.positive_ndigits .dec_t 12345678 ∧
    (10 : Int) ^ (details.positive_ndigits .dec_t 12345678 - 1) ≤ 12345678 ∧
    (12345678 : Int) < (10 : Int) ^ details.positive_ndigits .dec_t 12345678 :=
  have h := C14_decimal_digit_count 12345678 (by decide)
  ⟨by decide, by decide, h.1, h.2.1, h.2.2.1⟩

/-- C15: for every integer `x > 0` the octal `positive_ndigits(x)` is the unique `k ≥ 1`
with `8 ^ (k - 1) ≤ x < 8 ^ k`, and the hex-lower and hex-upper `positive_ndigits(x)` are
both the unique `k ≥ 1` with `16 ^ (k - 1) ≤ x < 16 ^ k`. -/
theorem C15_octal_hex_digit_count (x : Int) (hx : 0 < x) :
    (1 ≤ details.positive_ndigits .oct_t x ∧
      (8 : Int) ^ (details.positive_ndigits .oct_t x - 1) ≤ x ∧
      x < (8 : Int) ^ details.positive_ndigits .oct_t x ∧
      ∀ j : Nat, 1 ≤ j → (8 : Int) ^ (j - 1) ≤ x → x < (8 : Int) ^ j →
        j = details.positive_ndigits .oct_t x) ∧
    (1 ≤ details.positive_ndigits .hex_t x ∧
      (16 : Int) ^ (details.positive_ndigits .hex_t x - 1) ≤ x ∧
      x < (16 : Int) ^ details.positive_ndigits .hex_t x ∧
      ∀ j : Nat, 1 ≤ j → (16 : Int) ^ (j - 1) ≤ x → x < (16 : Int) ^ j →
        j = details.positive_ndigits .hex_t x) ∧
    (1 ≤ details.positive_ndigits .Hex_t x ∧
      (16 : Int) ^ (details.positive_ndigits .Hex_t x - 1) ≤ x ∧
      x < (16 : Int) ^ details.positive_ndigits .Hex_t x ∧
      ∀ j : Nat, 1 ≤ j → (16 : Int) ^ (j - 1) ≤ x → x < (16 : Int) ^ j →
        j = details.positive_ndigits .Hex_t x) :=
  ⟨positive_ndigits_unique .oct_t x hx, positive_ndigits_unique .hex_t x hx,
    positive_ndigits_unique .Hex_t x hx⟩

/-- C15 at `x = 255`: three octal digits, two hexadecimal digits. -/
theorem C15_octal_hex_digit_count_witness :
    (0 : Int) < 255 ∧ details.positive_ndigits .oct_t 255 = 3 ∧
    details.positive_ndigits .hex_t 255 = 2 ∧ details.positive_ndigits .Hex_t 255 = 2 ∧
    (8 : Int) ^ (details.positive_ndigits .oct_t 255 - 1) ≤ 255 ∧
    (255 : Int) < (16 : Int) ^ details.positive_ndigits .hex_t 255 :=
  have h := C15_octal_hex_digit_count 255 (by decide)
  ⟨by decide, by decide, by decide, by decide, h.1.2.1, h.2.1.2.2.1⟩

/-- C16: for every integer `x ≥ 0` and each base `b`, `trail_digit(x)` returns `x mod b` and
leaves `x div b` in `x`; so `b * (updated x) + (returned digit)` is the original `x`, and
the digit lies in `0..b-1`. -/
theorem C16_trail_digit (tag : Tag) (x : Int) (hx : 0 ≤ x) :
    (details.trail_digit tag x).1 = x % (tag.base : Int) ∧
    (details.trail_digit tag x).2 = x / (tag.base : Int) ∧
    (tag.base : Int) * (details.trail_digit tag x).2 + (details.trail_digit tag x).1 = x ∧
    0 ≤ (details.trail_digit tag x).1 ∧ (details.trail_digit tag x).1 < (tag.base : Int) := by
  obtain ⟨n, rfl⟩ := Int.eq_ofNat_of_zero_le hx
  have hb := tag.one_lt_base
  have hb' : (0 : Int) < (tag.base : Int) := by exact_mod_cast (by omega : 0 < tag.base)
  rw [details.trail_digit_natCast]
  dsimp only
  refine ⟨by push_cast; rfl, by push_cast; rfl, ?_, ?_, ?_⟩
  · have := Nat.div_add_mod n tag.base
    exact_mod_cast this
  · exact_mod_cast Nat.zero_le _
  · exact_mod_cast Nat.mod_lt n (by omega)

/-- C16 at `x = 255`: the decimal digit 5 and the hexadecimal digit 15. -/
theorem C16_trail_digit_witness :
    (0 : Int) ≤ 255 ∧ details.trail_digit .dec_t 255 = (5, 25) ∧
    details.trail_digit .hex_t 255 = (15, 15) ∧ details.trail_digit .oct_t 255 = (7, 31) ∧
    (details.trail_digit .dec_t 255).1 = 255 % ((Tag.dec_t).base : Int) ∧
    (details.trail_digit .dec_t 255).2 = 255 / ((Tag.dec_t).base : Int) :=
  have h := C16_trail_digit .dec_t 255 (by decide)
  ⟨by decide, by decide, by decide, by decide, h.1, h.2.1⟩

/-! ## Letter case -/

theorem hex_upper_digitChar (d : Nat) (h : d < 16) :
    hex_upper (Nat.digitChar d) = (Nat.digitChar d).toUpper := by
  interval_cases d <;> decide

theorem std_repr_Hex_eq_map (n : Nat) :
    details.std_repr .Hex_t n = (details.std_repr .hex_t n).map hex_upper := by
  rw [details.std_repr_eq, details.std_repr_eq]
  split_ifs with h
  · decide
  · rw [List.map_map]
    apply List.map_congr_left
    intro d hd
    rw [List.mem_reverse] at hd
    have hlt : d < 16 := Nat.digits_lt_base (by decide) hd
    exact (hex_upper_digitChar d hlt).symm

theorem signChar_map_hex_upper (x : Int) (plus : Bool) :
    (details.signChar x plus).toList.map hex_upper = (details.signChar x plus).toList := by
  rw [signChar_toList]
  split_ifs <;> decide

theorem layout_map_hex_upper (sign body : List Char) (w : Nat) (pad : Bool) :
    (details.layout sign body w pad).map hex_upper =
      details.layout (sign.map hex_upper) (body.map hex_upper) w pad := by
  have h0 : hex_upper '0' = '0' := by decide
  have h1 : hex_upper ' ' = ' ' := by decide
  unfold details.layout
  simp only [List.length_map]
  split_ifs <;> simp [List.map_replicate, h0, h1]

/-- C17: the hex-upper formatter differs from the hex-lower formatter with the same flags
only in letter case. For `x` other than the minimum of its signed type and every width
`w`, the two have equal `formatted_length`, and the text of `Hex` is the text of `hex` with
each of `'a'..'f'` replaced by `'A'..'F'`, with and without a width. -/
theorem C17_Hex_is_hex_in_upper_case (pad plus : Bool) (T : IntType) (x : Int) (w : Nat)
    (hx : T.inRange x) (hmin : T.signed = true → x ≠ T.minVal) :
    (⟨pad, plus⟩ : integer_formatter .Hex_t).formatted_length T x =
      (⟨pad, plus⟩ : integer_formatter .hex_t).formatted_length T x ∧
    (⟨pad, plus⟩ : integer_formatter .Hex_t).formatted_length_w T x w =
      (⟨pad, plus⟩ : integer_formatter .hex_t).formatted_length_w T x w ∧
    (∃ t : List Char, (⟨pad, plus⟩ : integer_formatter .hex_t).format_w T x w = .ok t ∧
      (⟨pad, plus⟩ : integer_formatter .Hex_t).format_w T x w = .ok (t.map hex_upper)) ∧
    (∃ t : List Char, (⟨pad, plus⟩ : integer_formatter .hex_t).format T x = .ok t ∧
      (⟨pad, plus⟩ : integer_formatter .Hex_t).format T x = .ok (t.map hex_upper)) := by
  refine ⟨rfl, rfl, ⟨_, integer_formatter.format_w_eq _ T x w hx hmin, ?_⟩,
    ⟨_, integer_formatter.format_eq _ T x hx hmin, ?_⟩⟩
  · rw [integer_formatter.format_w_eq _ T x w hx hmin, layout_map_hex_upper,
      signChar_map_hex_upper, std_repr_Hex_eq_map]
  · rw [integer_formatter.format_eq _ T x hx hmin, List.map_append,
      signChar_map_hex_upper, std_repr_Hex_eq_map]

/-- C17 at the example of the claim, `x = 255`: `"ff"` and `"FF"`. -/
theorem C17_Hex_is_hex_in_upper_case_witness :
    int32.inRange 255 ∧ (int32.signed = true → (255 : Int) ≠ int32.minVal) ∧
    hex.format int32 255 = .ok ['f', 'f'] ∧ Hex.format int32 255 = .ok ['F', 'F'] ∧
    ['f', 'f'].map hex_upper = ['F', 'F'] ∧
    (∃ t : List Char, hex.format int32 255 = .ok t ∧
      Hex.format int32 255 = .ok (t.map hex_upper)) :=
  ⟨by decide, by decide, by decide, by decide, by decide,
    (C17_Hex_is_hex_in_upper_case false false int32 255 0 (by decide) (by decide)).2.2.2⟩

/-! ## Widths that need no padding -/

/-- C18: when no padding is needed the width and the zero-pad flag have no effect. For `x`
other than the minimum of its signed type and `w ≤ formatted_length(x)`, `format(x, w)` is
`format(x)`, with the zero-pad flag set and with it clear. -/
theorem C18_no_padding_needed {tag : Tag} (f : integer_formatter tag) (T : IntType)
    (x : Int) (w : Nat) (hx : T.inRange x) (hmin : T.signed = true → x ≠ T.minVal)
    (hw : w ≤ f.formatted_length T x) :
    f.format_w T x w = f.format T x ∧
    (∀ p : Bool, (f.set_pad_zeros p).format_w T x w = f.format T x) ∧
    (f.set_pad_zeros true).format_w T x w = (f.set_pad_zeros false).format_w T x w := by
  have hl := f.formatted_length_eq T x hx hmin
  have key : ∀ g : integer_formatter tag, g.plus_sign_ = f.plus_sign_ →
      g.format_w T x w = f.format T x := by
    intro g hg
    rw [g.format_w_eq T x w hx hmin, f.format_eq T x hx hmin, hg]
    unfold details.layout
    dsimp only
    rw [if_neg (by omega)]
  exact ⟨key f rfl, fun p => key _ rfl,
    (key (f.set_pad_zeros true) rfl).trans (key (f.set_pad_zeros false) rfl).symm⟩

/-- C18 at `x = -42` of type `int`, decimal, width 3. -/
theorem C18_no_padding_needed_witness :
    int32.inRange (-42) ∧ (int32.signed = true → (-42 : Int) ≠ int32.minVal) ∧
    3 ≤ dec.formatted_length int32 (-42) ∧
    dec.format_w int32 (-42) 3 = dec.format int32 (-42) ∧
    (dec.set_pad_zeros true).format_w int32 (-42) 3 =
      (dec.set_pad_zeros false).format_w int32 (-42) 3 :=
  have h := C18_no_padding_needed dec int32 (-42) 3 (by decide) (by decide) (by decide)
  ⟨by decide, by decide, by decide, h.1, h.2.2⟩

/-! ## Termination of the digit loops -/

namespace details

theorem decLoop_fuel (f1 f2 : Nat) (x : Int) (c : Nat) (h1 : x.toNat ≤ f1)
    (h2 : x.toNat ≤ f2) : decLoop f1 x c = decLoop f2 x c := by
  induction f1 generalizing f2 x c with
  | zero =>
    cases f2 with
    | zero => rfl
    | succ f2 => simp only [decLoop]; rw [if_neg (by omega)]
  | succ f1 ih =>
    cases f2 with
    | zero => simp only [decLoop]; rw [if_neg (by omega)]
    | succ f2 =>
      simp only [decLoop]
      split_ifs with hx
      · have e : Int.tdiv x 10000 = x / 10000 := Int.tdiv_eq_ediv (by omega) (by norm_num)
        exact ih f2 _ _ (by omega) (by omega)
      · rfl

theorem shiftLoop_fuel (s : Nat) (hs : 0 < s) (f1 f2 : Nat) (x : Int) (c : Nat)
    (h1 : x.toNat ≤ f1) (h2 : x.toNat ≤ f2) : shiftLoop s f1 x c = shiftLoop s f2 x c := by
  have step : ∀ y : Int, 0 < y → (y >>> s).toNat < y.toNat := by
    intro y hy
    obtain ⟨n, rfl⟩ := Int.eq_ofNat_of_zero_le (le_of_lt hy)
    have e : ((n : Int) >>> s) = ((n >>> s : Nat) : Int) := rfl
    have hlt : n >>> s < n := by
      rw [Nat.shiftRight_eq_div_pow]
      exact Nat.div_lt_self (by omega) (Nat.one_lt_two_pow (by omega))
    rw [e]
    simpa using hlt
  induction f1 generalizing f2 x c with
  | zero =>
    cases f2 with
    | zero => rfl
    | succ f2 => simp only [shiftLoop]; rw [if_neg (by omega)]
  | succ f1 ih =>
    cases f2 with
    | zero => simp only [shiftLoop]; rw [if_neg (by omega)]
    | succ f2 =>
      simp only [shiftLoop]
      split_ifs with hx
      · have := step x hx
        exact ih f2 _ _ (by omega) (by omega)
      · rfl

theorem decLoop_snd (fuel : Nat) (x : Int) (c : Nat) :
    (decLoop fuel x c).2 = c + 4 * decLoop_iters fuel x := by
  induction fuel generalizing x c with
  | zero => rfl
  | succ fuel ih =>
    simp only [decLoop, decLoop_iters]
    split_ifs
    · rw [ih]; omega
    · rfl

theorem shiftLoop_snd (s fuel : Nat) (x : Int) (c : Nat) :
    (shiftLoop s fuel x c).2 = c + shiftLoop_iters s fuel x := by
  induction fuel generalizing x c with
  | zero => rfl
  | succ fuel ih =>
    simp only [shiftLoop, shiftLoop_iters]
    split_ifs
    · rw [ih]; omega
    · rfl

theorem decLookup_gt (x : Int) (c : Nat) : c < decLookup x c := by
  unfold decLookup
  split_ifs <;> omega

theorem write_digits_loop_written_length (tag : Tag) (buf m k i : Nat) (x : Int)
    (mem : Mem) :
    (write_digits_loop tag buf m k i x mem).2.written.length = mem.written.length + k := by
  induction k generalizing i x mem with
  | zero => rfl
  | succ k ih =>
    rcases h : trail_digit tag x with ⟨d, y⟩
    simp only [write_digits_loop, h]
    rw [ih, Mem.written_store, List.length_cons]
    omega

end details

/-- C19: every loop of the digit engine terminates. For every integer `x` (zero and
negative values too) the loops of `positive_ndigits(x)` give, with every number of steps
allowed from `x.toNat` on, the result they give with `x.toNat` steps, and they leave
through their condition; their bodies run `decLoop_iters` and `shiftLoop_iters` times (a
fourth of, and exactly, the count `c` they return), which for `x > 0` is at most the number
of digits of `x` in the base. `write_digits(x, nd, buf)` with `nd ≥ 1` runs its loop
`nd - 1` times: its loop bound is `nd - 1` and its loop makes `nd - 1` stores, one for each
digit it extracts. -/
theorem C19_digit_loops_terminate (tag : Tag) (x : Int) (fuel : Nat) (hf : x.toNat ≤ fuel) :
    (details.decLoop fuel x 0 = details.decLoop x.toNat x 0 ∧
      (details.decLoop x.toNat x 0).1 < 10000 ∧
      (details.decLoop x.toNat x 0).2 = 4 * details.decLoop_iters x.toNat x) ∧
    (∀ s : Nat, 0 < s →
      details.shiftLoop s fuel x 0 = details.shiftLoop s x.toNat x 0 ∧
      (details.shiftLoop s x.toNat x 0).1 ≤ 0 ∧
      (details.shiftLoop s x.toNat x 0).2 = details.shiftLoop_iters s x.toNat x) ∧
    (0 < x →
      details.decLoop_iters x.toNat x ≤ (Nat.digits 10 x.toNat).length ∧
      details.shiftLoop_iters 3 x.toNat x ≤ (Nat.digits 8 x.toNat).length ∧
      details.shiftLoop_iters 4 x.toNat x ≤ (Nat.digits 16 x.toNat).length) ∧
    (∀ nd buf : Nat, ∀ mem : Mem, 1 ≤ nd → nd < SIZE_MOD →
      (SIZE_MOD - 1 + nd) % SIZE_MOD = nd - 1 ∧
      (details.write_digits_loop tag buf (nd - 1) (nd - 1) 0 x mem).2.written.length =
        mem.written.length + (nd - 1) ∧
      (details.write_digits tag x nd buf mem).written.length = mem.written.length + nd) := by
  refine ⟨⟨details.decLoop_fuel _ _ _ _ hf le_rfl, details.decLoop_exit _ _ _ le_rfl, ?_⟩,
    ?_, ?_, ?_⟩
  · rw [details.decLoop_snd]; omega
  · intro s hs
    refine ⟨details.shiftLoop_fuel s hs _ _ _ _ hf le_rfl,
      details.shiftLoop_exit s hs _ _ _ le_rfl, ?_⟩
    rw [details.shiftLoop_snd]; omega
  · intro hx
    obtain ⟨n, rfl⟩ := Int.eq_ofNat_of_zero_le (le_of_lt hx)
    have hn : 0 < n := by exact_mod_cast hx
    have hd := details.positive_ndigits_natCast .dec_t n hn
    have ho := details.positive_ndigits_natCast .oct_t n hn
    have hh := details.positive_ndigits_natCast .hex_t n hn
    simp only [details.positive_ndigits, Tag.base] at hd ho hh
    rw [details.shiftLoop_snd] at ho hh
    have hg := details.decLookup_gt (details.decLoop (n : Int).toNat n 0).1
      (details.decLoop (n : Int).toNat n 0).2
    rw [hd, details.decLoop_snd] at hg
    simp only [Int.toNat_ofNat] at ho hh hg ⊢
    refine ⟨by omega, by omega, by omega⟩
  · intro nd buf mem h1 h2
    refine ⟨details.size_pred nd h1 h2, details.write_digits_loop_written_length _ _ _ _ _ _ _,
      ?_⟩
    rw [details.write_digits_eq _ _ _ _ _ h1 h2, Mem.written_store, List.length_cons,
      details.write_digits_loop_written_length]
    omega

/-- C19 at `x = 123456789`: two rounds of the decimal loop for nine digits, seven rounds of
the hexadecimal loop for seven digits. -/
theorem C19_digit_loops_terminate_witness :
    (123456789 : Int).toNat ≤ 1000000000 ∧
    details.decLoop 1000000000 123456789 0 = (1, 8) ∧
    details.decLoop_iters (123456789 : Int).toNat 123456789 = 2 ∧
    details.shiftLoop_iters 4 (123456789 : Int).toNat 123456789 = 7 ∧
    (details.decLoop 1000000000 123456789 0 =
        details.decLoop (123456789 : Int).toNat 123456789 0 ∧
      (details.decLoop (123456789 : Int).toNat 123456789 0).1 < 10000 ∧
      (details.decLoop (123456789 : Int).toNat 123456789 0).2 =
        4 * details.decLoop_iters (123456789 : Int).toNat 123456789) :=
  ⟨by decide, by decide, by decide, by decide,
    (C19_digit_loops_terminate .dec_t 123456789 1000000000 (by decide)).1⟩

/-! ## The string-returning operations -/

/-- The last store of `_format_int` is the one of the sentinel. -/
theorem _format_int_written_head (tag : Tag) (x : Int) (sign : Option Char) (nd width : Nat)
    (pad : Bool) (buf : Nat) (mem : Mem) :
    (details._format_int tag x sign nd width pad buf mem).2.written.head? =
      some (buf + max (nd + sign.toList.length) width) := by
  cases sign with
  | none =>
    simp only [details._format_int, Option.toList, List.length_nil, Nat.add_zero]
    split_ifs <;> simp only [details.fill_chars_fst, Mem.written_store, List.head?_cons] <;>
      exact congrArg some (by omega)
  | some c =>
    simp only [details._format_int, Option.toList, List.length_singleton]
    split_ifs <;> simp only [details.fill_chars_fst, Mem.written_store, List.head?_cons] <;>
      exact congrArg some (by omega)

/-- The stores of a successful `format_write` into a buffer that was not written before:
they go to the indices `buf, ..., buf + len`, the last of them to `buf + len`, where `len`
is the returned length. -/
theorem format_write_stores {tag : Tag} (f : integer_formatter tag) (T : IntType) (x : Int)
    (w buf c : Nat) (hx : T.inRange x) (hmin : T.signed = true → x ≠ T.minVal)
    (hc : f.formatted_length T x + 1 ≤ c) :
    (f.format_write T x w buf c Mem.fresh).1 = .ok (f.formatted_length_w T x w) ∧
    (∀ i, i ∈ (f.format_write T x w buf c Mem.fresh).2.written ↔
      buf ≤ i ∧ i ≤ buf + f.formatted_length_w T x w) ∧
    (f.format_write T x w buf c Mem.fresh).2.written.head? =
      some (buf + f.formatted_length_w T x w) := by
  have hok := f.format_write_ok T x w buf c Mem.fresh hx hmin hc
  have hmax := f.formatted_length_w_eq_max T x w
  have hl := f.formatted_length_eq T x hx hmin
  have h1 := details.std_repr_length_pos tag x.natAbs
  have h2 := details.std_repr_length_lt tag T x hx
  rw [hok]
  dsimp only
  refine ⟨rfl, ?_, ?_⟩
  · intro i
    rw [details._format_int_written tag x.natAbs _ _ w _ buf Mem.fresh h1 h2 i, hmax, hl]
    simp [Mem.fresh]
  · rw [_format_int_written_head, hmax, hl]

/-- C20: the string-returning operations never hit the buffer-too-small failure and never
write outside the string they allocate. For `x` other than the minimum of its signed type,
every flag setting and every width `w`, `format(x)` and `format(x, w)` return a string; the
`format_write` inside them succeeds, every index it stores to is at most the allocated
length (`formatted_length(x)`, respectively `formatted_length(x, w)`), and its last store
goes to that index, the terminator slot. The construction of the string itself is taken
to succeed. -/
theorem C20_string_operations_stay_in_bounds {tag : Tag} (f : integer_formatter tag)
    (T : IntType) (x : Int) (w : Nat) (hx : T.inRange x)
    (hmin : T.signed = true → x ≠ T.minVal) :
    (∃ s : List Char, f.format T x = .ok s) ∧
    (∃ s : List Char, f.format_w T x w = .ok s) ∧
    ((f.format_write T x 0 0 (f.formatted_length T x + 1) Mem.fresh).1 =
        .ok (f.formatted_length T x) ∧
      (∀ i ∈ (f.format_write T x 0 0 (f.formatted_length T x + 1) Mem.fresh).2.written,
        i ≤ f.formatted_length T x) ∧
      (f.format_write T x 0 0 (f.formatted_length T x + 1) Mem.fresh).2.written.head? =
        some (f.formatted_length T x)) ∧
    ((f.format_write T x w 0 (f.formatted_length_w T x w + 1) Mem.fresh).1 =
        .ok (f.formatted_length_w T x w) ∧
      (∀ i ∈ (f.format_write T x w 0 (f.formatted_length_w T x w + 1) Mem.fresh).2.written,
        i ≤ f.formatted_length_w T x w) ∧
      (f.format_write T x w 0 (f.formatted_length_w T x w + 1) Mem.fresh).2.written.head? =
        some (f.formatted_length_w T x w)) := by
  have h0 : f.formatted_length_w T x 0 = f.formatted_length T x := by
    rw [f.formatted_length_w_eq_max]; omega
  have hw : f.formatted_length T x ≤ f.formatted_length_w T x w := by
    rw [f.formatted_length_w_eq_max]; omega
  obtain ⟨a1, a2, a3⟩ :=
    format_write_stores f T x 0 0 (f.formatted_length T x + 1) hx hmin le_rfl
  obtain ⟨b1, b2, b3⟩ :=
    format_write_stores f T x w 0 (f.formatted_length_w T x w + 1) hx hmin (by omega)
  rw [h0] at a1 a2 a3
  refine ⟨⟨_, f.format_eq T x hx hmin⟩, ⟨_, f.format_w_eq T x w hx hmin⟩,
    ⟨a1, ?_, ?_⟩, ⟨b1, ?_, ?_⟩⟩
  · intro i hi
    have := (a2 i).mp hi
    omega
  · rw [a3, Nat.zero_add]
  · intro i hi
    have := (b2 i).mp hi
    omega
  · rw [b3, Nat.zero_add]

/-- C20 at `x = -42` of type `int`, decimal with zero padding, width 6. -/
theorem C20_string_operations_stay_in_bounds_witness :
    int32.inRange (-42) ∧ (int32.signed = true → (-42 : Int) ≠ int32.minVal) ∧
    (dec.set_pad_zeros true).formatted_length_w int32 (-42) 6 = 6 ∧
    ((dec.set_pad_zeros true).format_write int32 (-42) 6 0 7 Mem.fresh).2.written =
      [6, 4, 5, 3, 2, 1, 0] ∧
    (∃ s : List Char, (dec.set_pad_zeros true).format_w int32 (-42) 6 = .ok s) :=
  ⟨by decide, by decide, by decide, by decide,
    (C20_string_operations_stay_in_bounds (dec.set_pad_zeros true) int32 (-42) 6
      (by decide) (by decide)).2.1⟩

/-! ## Frame of a write -/

/-- C21: frame of a successful write. For `x` other than the minimum of its signed type,
every flag setting, every width `w` and a capacity that `format_write` accepts (any
capacity of at least `formatted_length(x, w) + 1` is one), the call returns
`r = formatted_length(x, w)` and stores to the `r + 1` cells `buf[0..r]` and to no other,
the last store being the one of the sentinel at `buf[r]`; every cell below `buf` or above
`buf[r]` holds what it held before; and the returned length and the cells `buf[0..r]` are
the same whatever the memory held before the call. -/
theorem C21_frame_of_successful_write {tag : Tag} (f : integer_formatter tag) (T : IntType)
    (x : Int) (w buf c : Nat) (mem mem' : Mem) (hx : T.inRange x)
    (hmin : T.signed = true → x ≠ T.minVal) (hc : f.formatted_length T x + 1 ≤ c) :
    (f.format_write T x w buf c mem).1 = .ok (f.formatted_length_w T x w) ∧
    (∀ i, i ∈ (f.format_write T x w buf c mem).2.written ↔
      i ∈ mem.written ∨ (buf ≤ i ∧ i ≤ buf + f.formatted_length_w T x w)) ∧
    (f.format_write T x w buf c mem).2.written.head? =
      some (buf + f.formatted_length_w T x w) ∧
    (f.format_write T x w buf c mem).2.cell (buf + f.formatted_length_w T x w) =
      Char.ofNat 0 ∧
    (∀ j, j < buf ∨ buf + f.formatted_length_w T x w < j →
      (f.format_write T x w buf c mem).2.cell j = mem.cell j) ∧
    (f.format_write T x w buf c mem').1 = (f.format_write T x w buf c mem).1 ∧
    (f.format_write T x w buf c mem').2.read buf (f.formatted_length_w T x w + 1) =
      (f.format_write T x w buf c mem).2.read buf (f.formatted_length_w T x w + 1) := by
  have hok := f.format_write_ok T x w buf c mem hx hmin hc
  have hok' := f.format_write_ok T x w buf c mem' hx hmin hc
  have hmax := f.formatted_length_w_eq_max T x w
  have hl := f.formatted_length_eq T x hx hmin
  have h1 := details.std_repr_length_pos tag x.natAbs
  have h2 := details.std_repr_length_lt tag T x hx
  have hr : ∀ m : Mem,
      (details._format_int tag (x.natAbs : Int) (details.signChar x f.plus_sign_)
        (details.std_repr tag x.natAbs).length w f.pad_zeros_ buf m).2.read buf
          (f.formatted_length_w T x w + 1) =
        details.layout (details.signChar x f.plus_sign_).toList
          (details.digitChars tag (details.std_repr tag x.natAbs).length x.natAbs) w
          f.pad_zeros_ ++ [Char.ofNat 0] := by
    intro m
    rw [Mem.read_succ, hmax, hl, details._format_int_read _ _ _ _ _ _ _ _ h1 h2,
      details._format_int_sentinel]
  rw [hok, hok']
  dsimp only
  refine ⟨rfl, ?_, ?_, ?_, ?_, rfl, ?_⟩
  · intro i
    rw [details._format_int_written tag x.natAbs _ _ w _ buf mem h1 h2 i, hmax, hl]
  · rw [_format_int_written_head, hmax, hl]
  · rw [hmax, hl]
    exact details._format_int_sentinel _ _ _ _ _ _ _ _
  · intro j hj
    rw [hmax, hl] at hj
    exact details._format_int_frame tag x.natAbs _ _ w _ buf mem h1 h2 j hj
  · rw [hr mem, hr mem']

/-- C21 at `x = -42` of type `int`, decimal, width 6, written at index 2 of a memory that
held `'#'` at index 9 and of a fresh one. -/
theorem C21_frame_of_successful_write_witness :
    int32.inRange (-42) ∧ (int32.signed = true → (-42 : Int) ≠ int32.minVal) ∧
    dec.formatted_length int32 (-42) + 1 ≤ 7 ∧
    (dec.format_write int32 (-42) 6 2 7 (Mem.fresh.store 9 '#')).1 = .ok 6 ∧
    (dec.format_write int32 (-42) 6 2 7 (Mem.fresh.store 9 '#')).2.written =
      [8, 6, 7, 5, 4, 3, 2, 9] ∧
    (dec.format_write int32 (-42) 6 2 7 (Mem.fresh.store 9 '#')).2.cell 9 = '#' ∧
    (dec.format_write int32 (-42) 6 2 7 (Mem.fresh.store 9 '#')).2.read 2 7 =
      [' ', ' ', ' ', '-', '4', '2', Char.ofNat 0] ∧
    (dec.format_write int32 (-42) 6 2 7 Mem.fresh).2.read 2
        (dec.formatted_length_w int32 (-42) 6 + 1) =
      (dec.format_write int32 (-42) 6 2 7 (Mem.fresh.store 9 '#')).2.read 2
        (dec.formatted_length_w int32 (-42) 6 + 1) :=
  ⟨by decide, by decide, by decide, by decide, by decide, by decide, by decide,
    (C21_frame_of_successful_write dec int32 (-42) 6 2 7 (Mem.fresh.store 9 '#') Mem.fresh
      (by decide) (by decide) (by decide)).2.2.2.2.2.2⟩

/-! ## Monotonicity of the formatted length -/

theorem int_formatted_length_natCast (tag : Tag) (T : IntType) (n : Nat) (plus : Bool) :
    details.int_formatted_length tag T (n : Int) plus =
      (details.std_repr tag n).length + (if plus = true then 1 else 0) := by
  have h0 : (0 : Int) ≤ (n : Int) := Int.ofNat_nonneg n
  simp only [details.int_formatted_length, ge_iff_le, h0, if_true, details.ndigits_eq_length]
  cases plus <;> simp

theorem std_repr_length_mono (tag : Tag) (n m : Nat) (h : n ≤ m) :
    (details.std_repr tag n).length ≤ (details.std_repr tag m).length := by
  rw [details.std_repr_length, details.std_repr_length]
  have hle := Nat.le_digits_len_le tag.base n m h
  split_ifs with hn hm hm
  · exact le_rfl
  · have hne : Nat.digits tag.base m ≠ [] := Nat.digits_ne_nil_iff_ne_zero.mpr hm
    exact List.length_pos.mpr hne
  · omega
  · exact hle

/-- C22: `formatted_length` is monotone in the magnitude. For integers `0 ≤ x ≤ y` of a
fixed-width integer type, each base and each plus-sign setting,
`formatted_length(x) ≤ formatted_length(y)`; hence `format_write` with width 0 and a
capacity sized for `y` succeeds for `x`, and all of its stores lie within that capacity. -/
theorem C22_formatted_length_monotone {tag : Tag} (f : integer_formatter tag) (T : IntType)
    (x y : Int) (buf c : Nat) (hx : T.inRange x) (h0 : 0 ≤ x) (hxy : x ≤ y)
    (hc : f.formatted_length T y + 1 ≤ c) :
    f.formatted_length T x ≤ f.formatted_length T y ∧
    (f.format_write T x 0 buf c Mem.fresh).1 = .ok (f.formatted_length T x) ∧
    ∀ i ∈ (f.format_write T x 0 buf c Mem.fresh).2.written, buf ≤ i ∧ i < buf + c := by
  obtain ⟨n, rfl⟩ := Int.eq_ofNat_of_zero_le h0
  obtain ⟨m, rfl⟩ := Int.eq_ofNat_of_zero_le (le_trans h0 hxy)
  have hnm : n ≤ m := by exact_mod_cast hxy
  have hmono : f.formatted_length T (n : Int) ≤ f.formatted_length T (m : Int) := by
    unfold integer_formatter.formatted_length
    rw [int_formatted_length_natCast, int_formatted_length_natCast]
    have := std_repr_length_mono tag n m hnm
    omega
  have hmin : T.signed = true → (n : Int) ≠ T.minVal := by
    intro hs
    have hp : (0 : Int) < 2 ^ (T.bits - 1) := by positivity
    unfold IntType.minVal
    rw [if_pos hs]
    omega
  have hw0 : f.formatted_length_w T (n : Int) 0 = f.formatted_length T (n : Int) := by
    rw [f.formatted_length_w_eq_max]; omega
  obtain ⟨a1, a2, -⟩ := format_write_stores f T (n : Int) 0 buf c hx hmin (by omega)
  rw [hw0] at a1 a2
  refine ⟨hmono, a1, ?_⟩
  intro i hi
  have := (a2 i).mp hi
  omega

/-- C22 at `x = 99` and `y = 12345` of type `int`, decimal with the plus sign. -/
theorem C22_formatted_length_monotone_witness :
    int32.inRange 99 ∧ (0 : Int) ≤ 99 ∧ (99 : Int) ≤ 12345 ∧
    (dec.set_plus_sign true).formatted_length int32 99 = 3 ∧
    (dec.set_plus_sign true).formatted_length int32 12345 = 6 ∧
    (dec.set_plus_sign true).formatted_length int32 12345 + 1 ≤ 7 ∧
    (dec.set_plus_sign true).formatted_length int32 99 ≤
      (dec.set_plus_sign true).formatted_length int32 12345 ∧
    ((dec.set_plus_sign true).format_write int32 99 0 0 7 Mem.fresh).1 =
      .ok ((dec.set_plus_sign true).formatted_length int32 99) :=
  have h := C22_formatted_length_monotone (dec.set_plus_sign true) int32 99 12345 0 7
    (by decide) (by decide) (by decide) (by decide)
  ⟨by decide, by decide, by decide, by decide, by decide, by decide, h.1, h.2.1⟩

end clue
